import Mathlib

/-!
# DynaPlex: the `Queue` ring buffer and the `MDPAdapter`

A shallow embedding of `dynaplex/modelling_helpers/queue.h`, of `dynaplex/mdpadapter.h` (the
constructor and the member functions that take or make a state handle) and of the model in
`mdp_collection/lostsalesMDP.cpp`, followed by the properties proved about them.

Conventions of the embedding.

* `std::vector<T>` is a `List α`; `items.size()` is `items.length`.
* `size_t` is `Nat`. A vector cannot hold `2^63` elements, so `first_item + num_items` and
  `items.size() * 2` stay far inside `size_t` and no reduction modulo `2^64` is needed. The
  `int` counter of the copy loop in `push_back` is a natural number as well: it counts the
  elements copied, and stays inside `int` for every queue of fewer than `2^31` elements.
* Allocation does not fail.
* The element type `T` is any type with a zero (`T(0)` and the value-initialised `T()` coincide
  for the arithmetic element types).
* `items[i]` with `i` outside the vector is undefined behaviour in C++; the embedding makes every
  such access explicit and answers `none` (or `Outcome.undefined`).
* A member function that can throw returns an `Outcome`: the returned value together with the
  queue afterwards, or the thrown error together with the queue as the exception leaves it.
* Classes the adapter uses whose headers are not among the sources (`VarGroup`,
  `PolicyRegistry`, `ActionRangeProvider`, `ToState`) are parameters or are written from the
  specification; each such definition says so.
-/

namespace DynaPlex

/-- The errors thrown, one constructor per `DynaPlex::Error` message; a message that names
    the model carries its `mdp_id`. -/
inductive Error where
  /-- Message `"Queue: queue is empty"` -/
  | queue_is_empty
  /-- the state handle does not carry the hash of the adapter it is given to -/
  | state_origin_mismatch
  /-- the `else` branch of `IncorporateActions` -/
  | missing_ModifyStateWithAction (mdp_id : String)
  /-- the `else` branch of `GetInitialState` -/
  | missing_GetInitialState (mdp_id : String)
  /-- the `else` branch of `ToVarGroup` -/
  | missing_ToVarGroup (mdp_id : String)
  /-- a policy name is registered a second time -/
  | duplicate_policy_name (name : String)
  deriving DecidableEq, Repr

/-- The text of the message, for the errors whose `DynaPlex::Error(...)` expression is in the
    sources. -/
def Error.what : Error → Option String
  | .queue_is_empty => some "Queue: queue is empty"
  | .missing_GetInitialState mdp_id =>
    some ("MDP.GetInitialStateVec in MDP: " ++ mdp_id
      ++ "\nMDP must publicly define GetInitialState() const returning MDP::State.")
  | .missing_ToVarGroup mdp_id =>
    some ("MDP.ToVarGroup(DynaPlex::State) in MDP: " ++ mdp_id
      ++ "\nState is not ConvertibleToVarGroup.")
  | .missing_ModifyStateWithAction mdp_id =>
    some ("MDP.IncorporateActions in MDP: " ++ mdp_id
      ++ "\nMDP does not publicly define ModifyStateWithAction(MDP::State,int64_t) const returning double")
  | .state_origin_mismatch => none
  | .duplicate_policy_name _ => none

/-- The text `part` occurs in `message`. -/
def mentions (message part : String) : Prop :=
  ∃ before after, message = before ++ part ++ after

/-- Result of a call of a member function on a state of type `σ`. -/
inductive Outcome (β σ : Type) where
  /-- normal return of `value`, leaving the object in `state` -/
  | ret (value : β) (state : σ)
  /-- an exception left the call, with the object in `state` -/
  | thrown (error : Error) (state : σ)
  /-- an access outside the bounds of the vector (undefined behaviour) -/
  | undefined
  deriving DecidableEq, Repr

/-- The data members of `Queue<T>`: `first_item`, `num_items`, `items`. -/
structure Queue (α : Type) where
  first_item : Nat
  num_items : Nat
  items : List α
  deriving DecidableEq, Repr

namespace Queue

variable {α : Type}

/-- Member `GetVectorIndex`: one conditional subtraction of the capacity. -/
def GetVectorIndex (q : Queue α) (unlooped_index : Nat) : Nat :=
  if unlooped_index ≥ q.items.length then unlooped_index - q.items.length
  else unlooped_index

/-- Member `Capacity()`: the size of the backing vector. -/
def Capacity (q : Queue α) : Nat := q.items.length

/-- Class `const_iterator`: the cursor `current`. The member `queue_ptr` is the queue that is passed
    along with the iterator wherever it is dereferenced. -/
structure const_iterator where
  current : Nat
  deriving DecidableEq, Repr

/-- Member `const_iterator::operator!=`: compares the cursors only. -/
def const_iterator.ne (lhs rhs : const_iterator) : Bool := lhs.current != rhs.current

/-- Member `const_iterator::operator++`. -/
def const_iterator.next (it : const_iterator) : const_iterator := ⟨it.current + 1⟩

/-- Member `const_iterator::operator*`: `queue_ptr->items[queue_ptr->GetVectorIndex(current)]`;
    `none` when that index lies outside the vector. -/
def deref (q : Queue α) (it : const_iterator) : Option α :=
  q.items[q.GetVectorIndex it.current]?

/-- Member `begin()`. -/
def begin (q : Queue α) : const_iterator := ⟨q.first_item⟩

/-- Member `end()`. -/
def end_ (q : Queue α) : const_iterator := ⟨q.first_item + q.num_items⟩

/-- Constructor `Queue(size_t n)`: `n` elements, all zero. -/
def sized [Zero α] (n : Nat) : Queue α := ⟨0, n, List.replicate n 0⟩

/-- Constructor `Queue()`. -/
def empty [Zero α] : Queue α := ⟨0, 0, List.replicate 0 0⟩

/-- Constructor `Queue(size_t n, const T value)`. -/
def filled (n : Nat) (value : α) : Queue α := ⟨0, n, List.replicate n value⟩

/-- Constructor `Queue(const Queue& other) = default`: memberwise copy. -/
def copy (other : Queue α) : Queue α := ⟨other.first_item, other.num_items, other.items⟩

/-- Constructor `Queue(std::initializer_list<T> init)`. -/
def of_init (init : List α) : Queue α := ⟨0, init.length, init⟩

/-- Constructor `Queue(Queue&& other)`: the new queue, and `other` as it is left behind (its vector has been
    moved from and is empty, its `num_items` is reset, its `first_item` is kept). -/
def move (other : Queue α) : Queue α × Queue α :=
  (⟨other.first_item, other.num_items, other.items⟩, ⟨other.first_item, 0, []⟩)

/-- Member `IsEmpty()`. -/
def IsEmpty (q : Queue α) : Bool := q.num_items == 0

/-- The copy loop of `push_back`:
    `for (auto it = begin(); it != stop; ++it) new_items[i++] = *it;`
    The first argument bounds the number of iterations; `none` when an access is out of bounds
    or the bound is used up. -/
def push_back_loop (q : Queue α) (stop : const_iterator) :
    Nat → const_iterator → Nat → List α → Option (List α)
  | 0, it, _, new_items => if it.ne stop then none else some new_items
  | fuel + 1, it, i, new_items =>
    if it.ne stop then
      match q.deref it with
      | none => none
      | some x =>
        if i < new_items.length then
          push_back_loop q stop fuel it.next (i + 1) (new_items.set i x)
        else none
    else some new_items

/-- The first half of `push_back`: when `num_items == items.size()`, move the elements to a
    fresh vector of the new capacity, in iteration order from slot 0, and reset `first_item`. -/
def expand [Zero α] (q : Queue α) : Option (Queue α) :=
  if q.num_items == q.items.length then
    let new_capacity := if q.items.length == 0 then 4 else q.items.length * 2
    let new_items : List α := List.replicate new_capacity 0
    match push_back_loop q q.end_ q.num_items q.begin 0 new_items with
    | none => none
    | some new_items => some ⟨0, q.num_items, new_items⟩
  else some q

/-- Member `push_back(item)`: expand when full, then
    `items[GetVectorIndex(first_item + num_items++)] = item`. It does not throw; `none` is
    undefined behaviour. -/
def push_back [Zero α] (q : Queue α) (item : α) : Option (Queue α) :=
  match expand q with
  | none => none
  | some q =>
    let index := q.GetVectorIndex (q.first_item + q.num_items)
    if index < q.items.length then
      some ⟨q.first_item, q.num_items + 1, q.items.set index item⟩
    else none

/-- Member `back()`: the reference `items[GetVectorIndex(first_item + num_items - 1)]`, given as the
    index of the slot it refers to. -/
def back (q : Queue α) : Outcome Nat (Queue α) :=
  if q.IsEmpty then .thrown .queue_is_empty q
  else
    let index := q.GetVectorIndex (q.first_item + q.num_items - 1)
    if index < q.items.length then .ret index q else .undefined

/-- Member `front()`: the reference `items[first_item]`, given as the index of the slot. -/
def front (q : Queue α) : Outcome Nat (Queue α) :=
  if q.IsEmpty then .thrown .queue_is_empty q
  else if q.first_item < q.items.length then .ret q.first_item q else .undefined

/-- Reading through a reference returned by `front()` or `back()`. -/
def read (q : Queue α) (slot : Nat) : Option α := q.items[slot]?

/-- Member `pop_front()`. -/
def pop_front [Zero α] (q : Queue α) : Outcome α (Queue α) :=
  if q.IsEmpty then .thrown .queue_is_empty q
  else
    match q.items[q.first_item]? with
    | none => .undefined
    | some front =>
      let items := q.items.set q.first_item 0
      let first_item := q.first_item + 1
      let num_items := q.num_items - 1
      if first_item == items.length then .ret front ⟨0, num_items, items⟩
      else .ret front ⟨first_item, num_items, items⟩

/-- The loop of `sum()`: `for (auto it = begin(); it != stop; ++it) sum += *it;`. -/
def sum_loop [Add α] (q : Queue α) (stop : const_iterator) :
    Nat → const_iterator → α → Option α
  | 0, it, sum => if it.ne stop then none else some sum
  | fuel + 1, it, sum =>
    if it.ne stop then
      match q.deref it with
      | none => none
      | some x => sum_loop q stop fuel it.next (sum + x)
    else some sum

/-- Member `sum()`: a non-const member function, so the queue afterwards is part of the result. -/
def sum [Zero α] [Add α] (q : Queue α) : Outcome α (Queue α) :=
  match sum_loop q q.end_ q.num_items q.begin 0 with
  | none => .undefined
  | some s => .ret s q

/-- Member `clear()`. -/
def clear (_q : Queue α) : Queue α := ⟨0, 0, []⟩

/-- Assignment through a reference returned by the non-const `front()` or `back()`, as in
    `q.front() = value`: only the slot referred to changes. -/
def assign (q : Queue α) (slot : Nat) (value : α) : Queue α :=
  ⟨q.first_item, q.num_items, q.items.set slot value⟩

/-- The loop of `operator==`:
    `while (lhsIter != lhsEnd) { if (*lhsIter != *rhsIter) return false; ++lhsIter; ++rhsIter; }
     return true;`. -/
def eq_loop [DecidableEq α] (lhs rhs : Queue α) (lhsEnd : const_iterator) :
    Nat → const_iterator → const_iterator → Option Bool
  | 0, lhsIter, _ => if lhsIter.ne lhsEnd then none else some true
  | fuel + 1, lhsIter, rhsIter =>
    if lhsIter.ne lhsEnd then
      match lhs.deref lhsIter, rhs.deref rhsIter with
      | some x, some y =>
        if x ≠ y then some false else eq_loop lhs rhs lhsEnd fuel lhsIter.next rhsIter.next
      | _, _ => none
    else some true

/-- Friend `operator==(lhs, rhs)`. -/
def op_eq [DecidableEq α] (lhs rhs : Queue α) : Option Bool :=
  if lhs.num_items ≠ rhs.num_items then some false
  else eq_loop lhs rhs lhs.end_ lhs.num_items lhs.begin rhs.begin

/-- Friend `operator!=(lhs, rhs)`: `!(lhs == rhs)`. -/
def op_ne [DecidableEq α] (lhs rhs : Queue α) : Option Bool :=
  (op_eq lhs rhs).map (fun b => !b)

/-! ### Vocabulary of the properties -/

/-- The ring-buffer invariant: `count ≤ capacity`, and the start offset is a valid index
    whenever the capacity is positive. -/
def WF (q : Queue α) : Prop :=
  q.num_items ≤ q.items.length ∧ (0 < q.items.length → q.first_item < q.items.length)

instance (q : Queue α) : Decidable q.WF := by
  unfold WF; infer_instance

/-- The invariant as the data model words it: `0 ≤ count ≤ capacity`, and the start offset is
    a valid index whenever `count > 0`. -/
def Inv (q : Queue α) : Prop :=
  q.num_items ≤ q.items.length ∧ (0 < q.num_items → q.first_item < q.items.length)

instance (q : Queue α) : Decidable q.Inv := by
  unfold Inv; infer_instance

/-- The logical contents: the `count` slots `(start + i) mod capacity`, `i < count`. -/
def logical [Zero α] (q : Queue α) : List α :=
  (List.range q.num_items).map (fun i => q.items.getD ((q.first_item + i) % q.items.length) 0)

/-- The loop `for (auto it = begin(); it != stop; ++it)` collecting `*it`: the elements a
    traversal with the iterators visits, in the order it visits them. -/
def traverse_loop (q : Queue α) (stop : const_iterator) :
    Nat → const_iterator → Option (List α)
  | 0, it => if it.ne stop then none else some []
  | fuel + 1, it =>
    if it.ne stop then
      match q.deref it with
      | none => none
      | some x =>
        match traverse_loop q stop fuel it.next with
        | none => none
        | some xs => some (x :: xs)
    else some []

/-- The elements visited by a traversal from `begin()` to `end()`. -/
def traverse (q : Queue α) : Option (List α) :=
  traverse_loop q q.end_ q.num_items q.begin

/-- A run of `push_back` calls, one per value, in order. -/
def push_all [Zero α] (q : Queue α) : List α → Option (Queue α)
  | [] => some q
  | v :: vs =>
    match push_back q v with
    | none => none
    | some q => push_all q vs

/-- A run of `n` calls of `pop_front`: the values returned, in order, and the queue afterwards;
    `none` as soon as one call does not return normally. -/
def pop_n [Zero α] : Nat → Queue α → Option (List α × Queue α)
  | 0, q => some ([], q)
  | n + 1, q =>
    match pop_front q with
    | .ret x q =>
      match pop_n n q with
      | none => none
      | some (xs, q) => some (x :: xs, q)
    | _ => none

/-- The slot is one of the logical positions `(start + i) mod capacity`, `i < count`. -/
def InWindow (q : Queue α) (slot : Nat) : Prop :=
  ∃ i, i < q.num_items ∧ (q.first_item + i) % q.items.length = slot

/-- The states a queue object can be in, each with the slots to which the program may hold a
    valid reference obtained from the non-const `front()` or `back()`.

    The constructors build a queue to which no reference is held; a copy is a new object; a
    move takes the vector, and the references into it, to the new object and leaves the source
    with none. `pop_front` never invalidates a reference, `push_back` does so exactly when it
    reallocates, `clear` always. A write goes through any reference that is still valid, also
    one obtained several calls earlier. `permit q slot` restricts the writes that are
    considered. -/
inductive Reach [Zero α] (permit : Queue α → Nat → Prop) : Queue α → List Nat → Prop
  | empty : Reach permit Queue.empty []
  | sized (n : Nat) : Reach permit (Queue.sized n) []
  | filled (n : Nat) (value : α) : Reach permit (Queue.filled n value) []
  | of_init (init : List α) : Reach permit (Queue.of_init init) []
  | copy {q : Queue α} {held : List Nat} : Reach permit q held → Reach permit (Queue.copy q) []
  | move_new {q : Queue α} {held : List Nat} : Reach permit q held →
      Reach permit (Queue.move q).1 held
  | move_old {q : Queue α} {held : List Nat} : Reach permit q held →
      Reach permit (Queue.move q).2 []
  | push_back_in_place {q q1 : Queue α} {held : List Nat} {v : α} : Reach permit q held →
      q.num_items ≠ q.items.length → Queue.push_back q v = some q1 → Reach permit q1 held
  | push_back_realloc {q q1 : Queue α} {held : List Nat} {v : α} : Reach permit q held →
      q.num_items = q.items.length → Queue.push_back q v = some q1 → Reach permit q1 []
  | pop_front {q q1 : Queue α} {held : List Nat} {x : α} : Reach permit q held →
      Queue.pop_front q = .ret x q1 → Reach permit q1 held
  | pop_front_thrown {q q1 : Queue α} {held : List Nat} {e : Error} : Reach permit q held →
      Queue.pop_front q = .thrown e q1 → Reach permit q1 held
  | clear {q : Queue α} {held : List Nat} : Reach permit q held →
      Reach permit (Queue.clear q) []
  | front {q q1 : Queue α} {held : List Nat} {slot : Nat} : Reach permit q held →
      Queue.front q = .ret slot q1 → Reach permit q1 (slot :: held)
  | back {q q1 : Queue α} {held : List Nat} {slot : Nat} : Reach permit q held →
      Queue.back q = .ret slot q1 → Reach permit q1 (slot :: held)
  | assign {q : Queue α} {held : List Nat} {slot : Nat} (v : α) : Reach permit q held →
      slot ∈ held → permit q slot → Reach permit (Queue.assign q slot v) held

/-- The states a queue object can be in: every write through a valid reference counts. -/
def Reachable [Zero α] (q : Queue α) : Prop :=
  ∃ held, Reach (fun _ _ => True) q held

/-- The states a queue object can be in when a reference returned by `front()` or `back()` is
    written only while the slot it refers to is one of the logical positions. -/
def ReachableLive [Zero α] (q : Queue α) : Prop :=
  ∃ held, Reach InWindow q held

end Queue

/-! ## The adapter -/

namespace Erasure

/-- A value stored in a configuration object: a number or a text. -/
inductive Value where
  | number (n : Int)
  | text (s : String)
  deriving DecidableEq, Repr

/-- Modelled from the spec: the configuration object `DynaPlex::VarGroup`
    (`dynaplex/vargroup.h` is not among the sources). Section 6 of the specification: a mapping
    from string keys to typed values; nested configurations are not used by the code embedded
    here. The entries are kept in the order in which they were added. -/
structure VarGroup where
  entries : List (String × Value)
  deriving DecidableEq, Repr

/-- Modelled from the spec: `VarGroup::Add(key, value)` adds one entry. -/
def VarGroup.Add (vars : VarGroup) (key : String) (value : Value) : VarGroup :=
  ⟨vars.entries ++ [(key, value)]⟩

/-- The identifier primitives of `VarGroup` that the constructor of the adapter calls. Their
    definitions are not among the sources; the specification takes the identifier strings and
    the 64-bit hash as given, deterministic functions of the configuration. -/
structure Identifiers where
  UniqueIdentifier : VarGroup → String
  Int64Hash : VarGroup → Int
  Identifier : VarGroup → String

/-- Modelled from the spec: `PolicyRegistry<t_MDP>` (`policyregistry.h` is not among the
    sources). Section 4.4 of the specification: entries of a name and a description (and the
    factory given as template argument), with names unique. -/
structure PolicyRegistry where
  entries : List (String × String)
  deriving DecidableEq, Repr

namespace PolicyRegistry

/-- Modelled from the spec: the default-constructed registry `policy_registry{}` has no
    entries. -/
def empty : PolicyRegistry := ⟨[]⟩

/-- The name is present in the registry. -/
def has (self : PolicyRegistry) (name : String) : Bool :=
  self.entries.any (fun entry => entry.1 == name)

/-- Modelled from the spec: `Register<PolicyFactory>(name, description)` adds an entry, and
    fails with the duplicate-name error when the name is already present. -/
def Register (self : PolicyRegistry) (name description : String) :
    Except Error PolicyRegistry :=
  if self.has name then .error (.duplicate_policy_name name)
  else .ok ⟨self.entries ++ [(name, description)]⟩

end PolicyRegistry

/-- Class `StateAdapter<State>`: the concrete state of a model next to the hash of the adapter that
    made it (`std::make_unique<StateAdapter<State>>(mdp_int_hash, mdp->GetInitialState())`).
    A `DynaPlex::State` handle owns one of these. -/
structure StateAdapter (S : Type) where
  hash : Int
  state : S
  deriving DecidableEq, Repr

/-- What `MDPAdapter<t_MDP>` uses of the model `t_MDP`. A member function that the model need
    not define, and whose presence the adapter tests with a concept (`static_assert` or
    `if constexpr`), is an `Option`. -/
structure MDP (S : Type) where
  /-- Member `GetStaticInfo()` -/
  GetStaticInfo : Option VarGroup
  /-- Member `GetInitialState()` -/
  GetInitialState : Option S
  /-- Member `ModifyStateWithAction(state, action)`: changes `state` in place (the `double` it
      returns is not used by the adapter) -/
  ModifyStateWithAction : Option (S → Int → S)
  /-- Member `State::ToVarGroup()`, present when `State` is `ConvertibleToVarGroup` -/
  ToVarGroup : Option (S → VarGroup)
  /-- Member `RegisterPolicies(policy_registry)`: registers the policies of the model -/
  RegisterPolicies : Option (PolicyRegistry → Except Error PolicyRegistry)

/-- The `static_assert`s of `MDPAdapter<t_MDP>`. `HasState` and `ConvertibleFromVarGroup` hold
    of every model of this embedding, which has a state type and is built from a `VarGroup`;
    `HasGetStaticInfo` is the presence of `GetStaticInfo`. With a model type that fails them
    the adapter does not compile. -/
def static_asserts {S : Type} (mdp : MDP S) : Bool := mdp.GetStaticInfo.isSome

/-- The data members of `MDPAdapter<t_MDP>`, in the order of their declaration. The
    `ActionRangeProvider<t_MDP>` is not among the sources: `provider(state)` is the sequence of
    action ids its range yields, a function of the state (a const call on a const state). -/
structure MDPAdapter (S : Type) where
  unique_id : String
  mdp_int_hash : Int
  mdp : MDP S
  mdp_id : String
  policy_registry : PolicyRegistry
  provider : S → List Int

namespace MDPAdapter

variable {S : Type}

/-- Member `RegisterPolicies()`, on the model and the registry of the adapter under
    construction: the generic policy first, then the hook of the model when it has one. -/
def RegisterPolicies (mdp : MDP S) (policy_registry : PolicyRegistry) :
    Except Error PolicyRegistry :=
  match policy_registry.Register "random" "makes a random choice between the allowed actions" with
  | .error e => .error e
  | .ok policy_registry =>
    match mdp.RegisterPolicies with
    | some hook => hook policy_registry
    | none => .ok policy_registry

/-- Constructor `MDPAdapter(const DynaPlex::VarGroup& vars)`. The members are initialised in
    the order of their declaration, then `RegisterPolicies()` runs; an exception it throws
    leaves no adapter. `t_MDP` is the constructor of the model and `ActionRangeProvider` that
    of the provider. -/
def construct (ids : Identifiers) (t_MDP : VarGroup → MDP S)
    (ActionRangeProvider : MDP S → S → List Int) (vars : VarGroup) :
    Except Error (MDPAdapter S) :=
  let unique_id := ids.UniqueIdentifier vars
  let mdp_int_hash := ids.Int64Hash vars
  let mdp := t_MDP vars
  let mdp_id := ids.Identifier vars
  let policy_registry := PolicyRegistry.empty
  let provider := ActionRangeProvider mdp
  match RegisterPolicies mdp policy_registry with
  | .error e => .error e
  | .ok policy_registry => .ok ⟨unique_id, mdp_int_hash, mdp, mdp_id, policy_registry, provider⟩

/-- Modelled from the spec: `ToState` is declared in `mdpadapter.h` and defined in
    `mdp_adapter_helpers/mdpadapter_tostate.h`, which is not among the sources. Section 4.2 of
    the specification: a reference to the concrete state if the fingerprint of the handle is
    the adapter's own, a state-origin-mismatch error otherwise. -/
def ToState (self : MDPAdapter S) (dp_state : StateAdapter S) : Except Error S :=
  if dp_state.hash = self.mdp_int_hash then .ok dp_state.state
  else .error .state_origin_mismatch

/-- The first loop of `AllowedActions`: `for (int64_t action : provider(state)) count++;`. -/
def count_actions (range : List Int) : Int :=
  range.foldl (fun count _ => count + 1) 0

/-- Member `std::vector::reserve`: the elements stay as they are. -/
def reserve (vec : List Int) (_n : Int) : List Int := vec

/-- Member `AllowedActions(const DynaPlex::State& dp_state)`. The body passes `dp_states` to
    `ToState`, a name declared nowhere; it is read as the parameter `dp_state`. -/
def AllowedActions (self : MDPAdapter S) (dp_state : StateAdapter S) :
    Outcome (List Int) (StateAdapter S) :=
  match self.ToState dp_state with
  | .error e => .thrown e dp_state
  | .ok state =>
    let count := count_actions (self.provider state)
    let vec : List Int := reserve [] count
    .ret ((self.provider state).foldl (fun vec action => vec ++ [action]) vec) dp_state

/-- Member `GetInitialState()`. -/
def GetInitialState (self : MDPAdapter S) : Except Error (StateAdapter S) :=
  match self.mdp.GetInitialState with
  | some state => .ok ⟨self.mdp_int_hash, state⟩
  | none => .error (.missing_GetInitialState self.mdp_id)

/-- Member `ToVarGroup(const DynaPlex::State& dp_state)`. The body passes `dp_states` to
    `ToState`; it is read as the parameter `dp_state`. -/
def ToVarGroup (self : MDPAdapter S) (dp_state : StateAdapter S) :
    Outcome VarGroup (StateAdapter S) :=
  match self.mdp.ToVarGroup with
  | some ToVarGroup =>
    match self.ToState dp_state with
    | .error e => .thrown e dp_state
    | .ok state => .ret (ToVarGroup state) dp_state
  | none => .thrown (.missing_ToVarGroup self.mdp_id) dp_state

/-- Member `IncorporateActions(DynaPlex::State& states)`. The body passes `dp_states` to `ToState`, a
    name declared nowhere; it is read as the parameter `states`. The result is the handle
    after the call. -/
def IncorporateActions (self : MDPAdapter S) (states : StateAdapter S) :
    Outcome Unit (StateAdapter S) :=
  match self.mdp.ModifyStateWithAction with
  | some ModifyStateWithAction =>
    match self.ToState states with
    | .error e => .thrown e states
    | .ok state =>
      let action : Int := 123
      .ret () ⟨states.hash, ModifyStateWithAction state action⟩
  | none => .thrown (.missing_ModifyStateWithAction self.mdp_id) states

/-- Member `GetPolicy(const DynaPlex::VarGroup& varGroup)`:
    `policy_registry.GetPolicy(mdp, varGroup, mdp_int_hash)`. The `GetPolicy` of the registry
    is not among the sources and is the first argument. -/
def GetPolicy {P : Type} (registry_GetPolicy : PolicyRegistry → MDP S → VarGroup → Int → P)
    (self : MDPAdapter S) (varGroup : VarGroup) : P :=
  registry_GetPolicy self.policy_registry self.mdp varGroup self.mdp_int_hash

/-- Specification of `ApplyAction(stateHandle, actionId)`, the operation of the uniform
    interface that `IncorporateActions` implements (sections 4.5 and 6 of the specification),
    written from the specification for comparison with the code: after the fingerprint check
    the requested action is applied to the concrete state; the call fails when the model has
    no mutation operation. -/
def ApplyAction_spec (self : MDPAdapter S) (stateHandle : StateAdapter S) (actionId : Int) :
    Outcome Unit (StateAdapter S) :=
  match self.mdp.ModifyStateWithAction with
  | some ModifyStateWithAction =>
    match self.ToState stateHandle with
    | .error e => .thrown e stateHandle
    | .ok state => .ret () ⟨stateHandle.hash, ModifyStateWithAction state actionId⟩
  | none => .thrown (.missing_ModifyStateWithAction self.mdp_id) stateHandle

end MDPAdapter

/-- A model whose state is the last action applied to it:
    `ModifyStateWithAction(state, action)` sets `state = action`. It has `GetStaticInfo` and
    `GetInitialState` (state 0) and nothing else. -/
def recording_mdp : MDP Int :=
  ⟨some ⟨[]⟩, some 0, some (fun _ action => action), none, none⟩

/-- An adapter with hash 1 of the recording model; its provider offers the actions 0 to 5. -/
def recording_adapter : MDPAdapter Int :=
  ⟨"recording", 1, recording_mdp, "recording",
    ⟨[("random", "makes a random choice between the allowed actions")]⟩,
    fun _ => [0, 1, 2, 3, 4, 5]⟩

/-- A model whose `RegisterPolicies` hook registers a policy under the name `"random"`. -/
def clashing_mdp : MDP Int :=
  ⟨some ⟨[]⟩, some 0, none, none,
    some (fun policy_registry => policy_registry.Register "random" "a policy of the model")⟩

/-- The identifier primitives used in the examples: the identifier strings are `"LostSales"`
    and the hash is the number of entries. -/
def example_ids : Identifiers :=
  ⟨fun _ => "LostSales", fun vars => vars.entries.length, fun _ => "LostSales"⟩

end Erasure

/-! ## The lost-sales model -/

namespace Models

namespace LostSales

open Erasure

/-- Struct `LostSales::MDP::State`. -/
structure State where
  state : Int
  deriving DecidableEq, Repr

/-- Member `State::ToVarGroup()`: a fresh `VarGroup` with the entry `"state"`. -/
def State.ToVarGroup (self : State) : VarGroup :=
  VarGroup.Add ⟨[]⟩ "state" (.number self.state)

/-- Member `GetInitialState()`: `State{ 123 }`. -/
def GetInitialState : State := ⟨123⟩

/-- Class `LostSales::MDP`, built by `MDP(const DynaPlex::VarGroup& vars)`, as the adapter sees
    it. The constructor stores `vars` and reads `p` and `h`, which no member function uses.
    The class defines `State`, `GetInitialState` and the constructor; it defines no
    `GetStaticInfo`, no `ModifyStateWithAction` and no `RegisterPolicies`. -/
def MDP (_vars : VarGroup) : Erasure.MDP State :=
  ⟨none, some GetInitialState, none, some State.ToVarGroup, none⟩

/-- The configuration with `p = 1` and `h = 1`. -/
def config : VarGroup := ⟨[("p", .number 1), ("h", .number 1)]⟩

/-- The adapter of the lost-sales model that the constructor builds from `config` with the
    identifier primitives `example_ids` (hash 2, identifier `"LostSales"`) and a provider
    offering the actions 0 and 1. -/
def adapter : MDPAdapter State :=
  ⟨"LostSales", 2, MDP config, "LostSales",
    ⟨[("random", "makes a random choice between the allowed actions")]⟩, fun _ => [0, 1]⟩

end LostSales

end Models

end DynaPlex

/-! ## Properties -/

namespace DynaPlex

namespace Queue

variable {α : Type}

/-! ### Index arithmetic and the logical contents -/

theorem wrap_eq_mod (a c : Nat) (h : a < 2 * c) :
    (if a ≥ c then a - c else a) = a % c := by
  split
  · rename_i hge
    rw [Nat.mod_eq_sub_mod hge, Nat.mod_eq_of_lt (by omega)]
  · rw [Nat.mod_eq_of_lt (by omega)]

theorem GetVectorIndex_eq_mod (q : Queue α) (a : Nat) (h : a < 2 * q.items.length) :
    q.GetVectorIndex a = a % q.items.length := by
  unfold GetVectorIndex
  exact wrap_eq_mod a q.items.length h

theorem GetVectorIndex_lt (q : Queue α) (a : Nat) (h : a < 2 * q.items.length) :
    q.GetVectorIndex a < q.items.length := by
  unfold GetVectorIndex
  split <;> omega

theorem WF.offset_lt {q : Queue α} (h : q.WF) {i : Nat} (hi : i < q.num_items) :
    q.first_item + i < 2 * q.items.length := by
  have h1 := h.1
  have h2 := h.2 (by omega)
  omega

theorem length_logical [Zero α] (q : Queue α) : (logical q).length = q.num_items := by
  simp [logical]

theorem getElem?_logical [Zero α] (q : Queue α) (i : Nat) (hi : i < q.num_items) :
    (logical q)[i]? = some (q.items.getD ((q.first_item + i) % q.items.length) 0) := by
  simp [logical, List.getElem?_range hi]

theorem getElem?_logical_of_WF [Zero α] {q : Queue α} (h : q.WF) (i : Nat)
    (hi : i < q.num_items) :
    (logical q)[i]? = q.items[(q.first_item + i) % q.items.length]? := by
  have hlt : (q.first_item + i) % q.items.length < q.items.length :=
    Nat.mod_lt _ (by have := h.1; omega)
  rw [getElem?_logical q i hi, List.getD_eq_getElem _ _ hlt, List.getElem?_eq_getElem hlt]

theorem deref_eq_logical [Zero α] {q : Queue α} (h : q.WF) (i : Nat) (hi : i < q.num_items) :
    q.deref ⟨q.first_item + i⟩ = (logical q)[i]? := by
  rw [getElem?_logical_of_WF h i hi]
  unfold deref
  rw [GetVectorIndex_eq_mod q _ (h.offset_lt hi)]

/-! ### The loops -/

theorem ne_of_lt_stop (q : Queue α) {k : Nat} (hk : k < q.num_items) :
    const_iterator.ne ⟨q.first_item + k⟩ q.end_ = true := by
  simp [const_iterator.ne, end_]
  omega

theorem ne_at_stop (q : Queue α) :
    const_iterator.ne ⟨q.first_item + q.num_items⟩ q.end_ = false := by
  simp [const_iterator.ne, end_]

theorem set_take_drop (new_items L : List α) (k n : Nat) (x : α) (hk : k < n)
    (hn : n ≤ new_items.length) (hL : L.length = n) (hx : L[k]? = some x) :
    (new_items.set k x).take (k + 1) ++ L.drop (k + 1) ++ (new_items.set k x).drop n
      = new_items.take k ++ L.drop k ++ new_items.drop n := by
  have hkL : k < L.length := by omega
  have hxe : L[k] = x := by
    rw [List.getElem?_eq_getElem hkL] at hx
    exact Option.some.inj hx
  have hset : (new_items.set k x)[k]? = some x := List.getElem?_set_self (by omega)
  have htake : (new_items.set k x).take k = new_items.take k := by
    rw [List.set_take]
    exact List.set_eq_of_length_le (by simp)
  rw [List.drop_set_of_lt x new_items hk, List.drop_eq_getElem_cons hkL, hxe, List.take_succ,
    hset, htake]
  simp

theorem push_back_loop_spec (q : Queue α) (L : List α) (hlen : L.length = q.num_items)
    (hL : ∀ i, i < q.num_items → q.deref ⟨q.first_item + i⟩ = L[i]?) :
    ∀ (n k : Nat) (new_items : List α), k + n = q.num_items →
      q.num_items ≤ new_items.length →
      push_back_loop q q.end_ n ⟨q.first_item + k⟩ k new_items
        = some (new_items.take k ++ L.drop k ++ new_items.drop q.num_items) := by
  intro n
  induction n with
  | zero =>
    intro k new_items hk _
    have hk' : k = q.num_items := by omega
    subst hk'
    have hd : L.drop q.num_items = [] := List.drop_eq_nil_of_le (by omega)
    simp [push_back_loop, ne_at_stop, hd]
  | succ n ih =>
    intro k new_items hk hcap
    have hklt : k < q.num_items := by omega
    have hkL : k < L.length := by omega
    have hx : q.deref ⟨q.first_item + k⟩ = some L[k] := by
      rw [hL k hklt, List.getElem?_eq_getElem]
    have hki : k < new_items.length := by omega
    simp only [push_back_loop, ne_of_lt_stop q hklt, hx, hki, if_true, const_iterator.next]
    rw [show q.first_item + k + 1 = q.first_item + (k + 1) by omega,
      ih (k + 1) _ (by omega) (by simpa using hcap)]
    rw [set_take_drop new_items L k q.num_items _ hklt hcap hlen (List.getElem?_eq_getElem _)]

theorem sum_loop_spec [Add α] (q : Queue α) (L : List α) (hlen : L.length = q.num_items)
    (hL : ∀ i, i < q.num_items → q.deref ⟨q.first_item + i⟩ = L[i]?) :
    ∀ (n k : Nat) (acc : α), k + n = q.num_items →
      sum_loop q q.end_ n ⟨q.first_item + k⟩ acc
        = some ((L.drop k).foldl (fun s x => s + x) acc) := by
  intro n
  induction n with
  | zero =>
    intro k acc hk
    have hk' : k = q.num_items := by omega
    subst hk'
    have hd : L.drop q.num_items = [] := List.drop_eq_nil_of_le (by omega)
    simp [sum_loop, ne_at_stop, hd]
  | succ n ih =>
    intro k acc hk
    have hklt : k < q.num_items := by omega
    have hkL : k < L.length := by omega
    have hx : q.deref ⟨q.first_item + k⟩ = some L[k] := by
      rw [hL k hklt, List.getElem?_eq_getElem]
    simp only [sum_loop, ne_of_lt_stop q hklt, hx, if_true, const_iterator.next]
    rw [show q.first_item + k + 1 = q.first_item + (k + 1) by omega, ih (k + 1) _ (by omega),
      List.drop_eq_getElem_cons hkL, List.foldl_cons]

theorem traverse_loop_spec (q : Queue α) (L : List α) (hlen : L.length = q.num_items)
    (hL : ∀ i, i < q.num_items → q.deref ⟨q.first_item + i⟩ = L[i]?) :
    ∀ (n k : Nat), k + n = q.num_items →
      traverse_loop q q.end_ n ⟨q.first_item + k⟩ = some (L.drop k) := by
  intro n
  induction n with
  | zero =>
    intro k hk
    have hk1 : k = q.num_items := by omega
    subst hk1
    have hd : L.drop q.num_items = [] := List.drop_eq_nil_of_le (by omega)
    simp [traverse_loop, ne_at_stop, hd]
  | succ n ih =>
    intro k hk
    have hklt : k < q.num_items := by omega
    have hkL : k < L.length := by omega
    have hx : q.deref ⟨q.first_item + k⟩ = some L[k] := by
      rw [hL k hklt, List.getElem?_eq_getElem]
    simp only [traverse_loop, ne_of_lt_stop q hklt, hx, if_true, const_iterator.next]
    rw [show q.first_item + k + 1 = q.first_item + (k + 1) by omega, ih (k + 1) (by omega),
      List.drop_eq_getElem_cons hkL]

/-- Iteration from `begin()` to `end()` visits the logical contents, in order. -/
theorem traverse_of_WF [Zero α] {q : Queue α} (h : q.WF) : traverse q = some (logical q) := by
  have hloop := traverse_loop_spec q (logical q) (length_logical q)
    (fun i hi => deref_eq_logical h i hi) q.num_items 0 (by omega)
  simpa [traverse, begin] using hloop

theorem eq_loop_spec [DecidableEq α] (lhs rhs : Queue α) (L R : List α)
    (hlen : L.length = lhs.num_items) (hlenR : R.length = lhs.num_items)
    (hL : ∀ i, i < lhs.num_items → lhs.deref ⟨lhs.first_item + i⟩ = L[i]?)
    (hR : ∀ i, i < lhs.num_items → rhs.deref ⟨rhs.first_item + i⟩ = R[i]?) :
    ∀ (n k : Nat), k + n = lhs.num_items →
      eq_loop lhs rhs lhs.end_ n ⟨lhs.first_item + k⟩ ⟨rhs.first_item + k⟩
        = some (decide (L.drop k = R.drop k)) := by
  intro n
  induction n with
  | zero =>
    intro k hk
    have hk' : k = lhs.num_items := by omega
    subst hk'
    have hd : L.drop lhs.num_items = [] := List.drop_eq_nil_of_le (by omega)
    have hdR : R.drop lhs.num_items = [] := List.drop_eq_nil_of_le (by omega)
    simp [eq_loop, ne_at_stop, hd, hdR]
  | succ n ih =>
    intro k hk
    have hklt : k < lhs.num_items := by omega
    have hkL : k < L.length := by omega
    have hkR : k < R.length := by omega
    have hx : lhs.deref ⟨lhs.first_item + k⟩ = some L[k] := by
      rw [hL k hklt, List.getElem?_eq_getElem]
    have hy : rhs.deref ⟨rhs.first_item + k⟩ = some R[k] := by
      rw [hR k hklt, List.getElem?_eq_getElem]
    simp only [eq_loop, ne_of_lt_stop lhs hklt, hx, hy, if_true, const_iterator.next]
    rw [show lhs.first_item + k + 1 = lhs.first_item + (k + 1) by omega,
      show rhs.first_item + k + 1 = rhs.first_item + (k + 1) by omega, ih (k + 1) (by omega),
      List.drop_eq_getElem_cons hkL, List.drop_eq_getElem_cons hkR]
    by_cases hxy : L[k] = R[k]
    · simp only [ne_eq, hxy, not_true_eq_false, if_false, List.cons.injEq, true_and]
    · simp only [ne_eq, hxy, not_false_eq_true, if_true, List.cons.injEq, false_and,
        decide_False]

/-! ### `push_back` -/

/-- The capacity `push_back` allocates when the queue is full. -/
theorem expand_of_full [Zero α] {q : Queue α} (h : q.WF) (hfull : q.num_items = q.items.length) :
    expand q = some ⟨0, q.num_items, logical q ++
      List.replicate ((if q.items.length = 0 then 4 else q.items.length * 2) - q.num_items) 0⟩ := by
  have hloop := push_back_loop_spec q (logical q) (length_logical q)
    (fun i hi => deref_eq_logical h i hi) q.num_items 0
    (List.replicate (if q.items.length = 0 then 4 else q.items.length * 2) 0) (by omega)
    (by simp; split <;> omega)
  simp only [Nat.add_zero] at hloop
  have hb : q.begin = ⟨q.first_item⟩ := rfl
  simp only [expand, hfull, beq_self_eq_true, if_true, hb, beq_iff_eq]
  rw [hfull] at hloop
  rw [hloop]
  simp [List.drop_replicate]

theorem expand_of_not_full [Zero α] {q : Queue α} (hnf : q.num_items ≠ q.items.length) :
    expand q = some q := by
  simp [expand, hnf]

theorem set_length_append_replicate (L : List α) (m : Nat) (z v : α) :
    (L ++ List.replicate (m + 1) z).set L.length v = L ++ v :: List.replicate m z := by
  rw [List.set_append]
  simp [List.replicate_succ]

theorem push_back_of_full [Zero α] {q : Queue α} (h : q.WF)
    (hfull : q.num_items = q.items.length) (v : α) :
    push_back q v = some ⟨0, q.num_items + 1, logical q ++ v ::
      List.replicate ((if q.items.length = 0 then 4 else q.items.length * 2)
        - q.num_items - 1) 0⟩ := by
  obtain ⟨m, hm⟩ : ∃ m, (if q.items.length = 0 then 4 else q.items.length * 2)
      - q.num_items = m + 1 := ⟨(if q.items.length = 0 then 4 else q.items.length * 2)
      - q.num_items - 1, by split <;> omega⟩
  have hlen := length_logical q
  have hidx : GetVectorIndex (⟨0, q.num_items, logical q ++ List.replicate (m + 1) 0⟩ : Queue α)
      (0 + q.num_items) = q.num_items := by
    simp [GetVectorIndex, hlen]
  have hset := set_length_append_replicate (logical q) m 0 v
  rw [hlen] at hset
  rw [push_back, expand_of_full h hfull, hm]
  simp only [hidx, hset, List.length_append, List.length_replicate, hlen, Nat.add_sub_cancel]
  rw [if_pos (by omega)]

theorem push_back_of_not_full [Zero α] {q : Queue α} (h : q.WF)
    (hnf : q.num_items < q.items.length) (v : α) :
    push_back q v = some ⟨q.first_item, q.num_items + 1,
      q.items.set ((q.first_item + q.num_items) % q.items.length) v⟩ := by
  have hf := h.2 (by omega)
  have hlt : q.first_item + q.num_items < 2 * q.items.length := by omega
  simp only [push_back, expand_of_not_full (Nat.ne_of_lt hnf), GetVectorIndex_eq_mod q _ hlt]
  rw [if_pos (Nat.mod_lt _ (by omega))]

theorem logical_of_front [Zero α] (M rest : List α) :
    logical (⟨0, M.length, M ++ rest⟩ : Queue α) = M := by
  apply List.ext_getElem?
  intro i
  by_cases hi : i < M.length
  · rw [getElem?_logical _ i hi]
    have hi2 : i < (M ++ rest).length := by simp; omega
    simp only [Nat.zero_add, Nat.mod_eq_of_lt hi2]
    rw [List.getD_eq_getElem _ _ hi2, List.getElem_append_left hi, List.getElem?_eq_getElem hi]
  · rw [List.getElem?_eq_none (by simp [length_logical]; omega),
      List.getElem?_eq_none (by omega)]

theorem mod_offset_ne (f c i j : Nat) (hf : f < c) (hij : i < j) (hj : j < c) :
    (f + i) % c ≠ (f + j) % c := by
  rw [← wrap_eq_mod (f + i) c (by omega), ← wrap_eq_mod (f + j) c (by omega)]
  split <;> split <;> omega

theorem getD_set_ne (l : List α) (i j : Nat) (a d : α) (h : i ≠ j) :
    (l.set i a).getD j d = l.getD j d := by
  rw [List.getD_eq_getElem?_getD, List.getD_eq_getElem?_getD, List.getElem?_set_ne h]

theorem getD_set_self (l : List α) (i : Nat) (a d : α) (h : i < l.length) :
    (l.set i a).getD i d = a := by
  rw [List.getD_eq_getElem?_getD, List.getElem?_set_self h]
  rfl

theorem logical_push_not_full [Zero α] {q : Queue α} (h : q.WF)
    (hnf : q.num_items < q.items.length) (v : α) :
    logical (⟨q.first_item, q.num_items + 1,
      q.items.set ((q.first_item + q.num_items) % q.items.length) v⟩ : Queue α)
      = logical q ++ [v] := by
  have hf := h.2 (by omega)
  simp only [logical, List.range_succ, List.map_append, List.length_set, List.map_cons,
    List.map_nil]
  congr 1
  · apply List.map_congr_left
    intro i hi
    rw [List.mem_range] at hi
    exact getD_set_ne _ _ _ _ _
      (Ne.symm (mod_offset_ne q.first_item q.items.length i q.num_items hf hi hnf))
  · rw [getD_set_self _ _ _ _ (Nat.mod_lt _ (by omega))]

theorem push_back_spec [Zero α] {q : Queue α} (h : q.WF) (v : α) :
    ∃ q1, push_back q v = some q1 ∧ q1.WF ∧ logical q1 = logical q ++ [v]
      ∧ q1.num_items = q.num_items + 1 := by
  by_cases hfull : q.num_items = q.items.length
  · refine ⟨_, push_back_of_full h hfull v, ?_, ?_, rfl⟩
    · constructor
      · simp only [List.length_append, List.length_cons, List.length_replicate, length_logical]
        split <;> omega
      · intro _
        simp only [List.length_append, List.length_cons, List.length_replicate, length_logical]
        omega
    · have := logical_of_front (logical q ++ [v])
        (List.replicate ((if q.items.length = 0 then 4 else q.items.length * 2)
          - q.num_items - 1) (0 : α))
      simp only [List.length_append, length_logical, List.length_singleton, List.append_assoc,
        List.singleton_append] at this
      exact this
  · have hnf : q.num_items < q.items.length := lt_of_le_of_ne h.1 hfull
    refine ⟨_, push_back_of_not_full h hnf v, ?_, logical_push_not_full h hnf v, rfl⟩
    constructor
    · simp only [List.length_set]
      omega
    · intro _
      simp only [List.length_set]
      exact h.2 (by omega)

theorem WF_empty [Zero α] : (empty : Queue α).WF := by
  simp [WF, empty]

theorem logical_empty [Zero α] : logical (empty : Queue α) = [] := by
  simp [logical, empty]

theorem push_all_spec [Zero α] (vs : List α) :
    ∀ {q : Queue α}, q.WF →
      ∃ q1, push_all q vs = some q1 ∧ q1.WF ∧ logical q1 = logical q ++ vs := by
  induction vs with
  | nil =>
    intro q h
    exact ⟨q, rfl, h, by simp⟩
  | cons v vs ih =>
    intro q h
    obtain ⟨q1, hq1, hwf1, hlog1, _⟩ := push_back_spec h v
    obtain ⟨q2, hq2, hwf2, hlog2⟩ := ih hwf1
    refine ⟨q2, ?_, hwf2, ?_⟩
    · simp only [push_all, hq1, hq2]
    · rw [hlog2, hlog1]
      simp

/-! ### `pop_front` -/

theorem pop_front_of_pos [Zero α] {q : Queue α} (hpos : 0 < q.num_items)
    (hf : q.first_item < q.items.length) :
    pop_front q = .ret (q.items.getD q.first_item 0)
      ⟨(q.first_item + 1) % q.items.length, q.num_items - 1, q.items.set q.first_item 0⟩ := by
  have hne : q.IsEmpty = false := by simp [IsEmpty]; omega
  simp only [pop_front, hne, List.getElem?_eq_getElem hf, List.length_set,
    List.getD_eq_getElem _ _ hf]
  by_cases hw : q.first_item + 1 = q.items.length
  · simp [hw]
  · have : (q.first_item + 1) % q.items.length = q.first_item + 1 :=
      Nat.mod_eq_of_lt (by omega)
    simp [hw, this]

theorem logical_pop [Zero α] {q : Queue α} (h : q.WF) (hpos : 0 < q.num_items) :
    logical q = q.items.getD q.first_item 0 ::
      logical (⟨(q.first_item + 1) % q.items.length, q.num_items - 1,
        q.items.set q.first_item 0⟩ : Queue α) := by
  have hcap := h.1
  have hf := h.2 (by omega)
  obtain ⟨n, hn⟩ : ∃ n, q.num_items = n + 1 := ⟨q.num_items - 1, by omega⟩
  simp only [logical, hn, List.range_succ_eq_map, List.map_cons, List.map_map, Nat.add_zero,
    Nat.mod_eq_of_lt hf, Nat.add_sub_cancel, List.length_set]
  congr 1
  apply List.map_congr_left
  intro i hi
  rw [List.mem_range] at hi
  simp only [Function.comp, Nat.succ_eq_add_one]
  have hmod : ((q.first_item + 1) % q.items.length + i) % q.items.length
      = (q.first_item + (i + 1)) % q.items.length := by
    rw [Nat.add_mod, Nat.mod_mod, ← Nat.add_mod]
    congr 1
    omega
  rw [hmod]
  have hne := mod_offset_ne q.first_item q.items.length 0 (i + 1) hf (by omega) (by omega)
  rw [Nat.add_zero, Nat.mod_eq_of_lt hf] at hne
  exact (getD_set_ne _ _ _ _ _ hne).symm

theorem pop_front_spec [Zero α] {q : Queue α} (h : q.WF) (x : α) (xs : List α)
    (hlog : logical q = x :: xs) :
    ∃ q1, pop_front q = .ret x q1 ∧ q1.WF ∧ logical q1 = xs := by
  have hpos : 0 < q.num_items := by
    have := length_logical q
    rw [hlog] at this
    simp at this
    omega
  have hf := h.2 (by have := h.1; omega)
  have hl := logical_pop h hpos
  rw [hlog] at hl
  injection hl with hx hxs
  refine ⟨_, ?_, ?_, hxs.symm⟩
  · rw [hx]
    exact pop_front_of_pos hpos hf
  · constructor
    · simp only [List.length_set]
      have := h.1
      omega
    · intro hc
      simp only [List.length_set] at hc ⊢
      exact Nat.mod_lt _ hc

theorem pop_n_spec [Zero α] (xs : List α) :
    ∀ {q : Queue α} (rest : List α), q.WF → logical q = xs ++ rest →
      ∃ q1, pop_n xs.length q = some (xs, q1) ∧ q1.WF ∧ logical q1 = rest := by
  induction xs with
  | nil =>
    intro q rest h hlog
    exact ⟨q, rfl, h, by simpa using hlog⟩
  | cons x xs ih =>
    intro q rest h hlog
    obtain ⟨q1, hq1, hwf1, hlog1⟩ := pop_front_spec h x (xs ++ rest) (by simpa using hlog)
    obtain ⟨q2, hq2, hwf2, hlog2⟩ := ih rest hwf1 hlog1
    refine ⟨q2, ?_, hwf2, hlog2⟩
    simp only [List.length_cons, pop_n, hq1, hq2]

/-- C1 (FIFO). Starting from the default-constructed queue, `push_back` of `v1 … vN` in turn
    succeeds, the following `N` calls of `pop_front` all return normally, the values they
    return are `v1 … vN` in that order, and the queue is then empty: `num_items = 0` and
    `IsEmpty()` holds. -/
theorem fifo_push_then_pop {α : Type} [Zero α] (vs : List α) :
    ∃ q q1 : Queue α, push_all empty vs = some q ∧ pop_n vs.length q = some (vs, q1)
      ∧ q1.num_items = 0 ∧ q1.IsEmpty = true := by
  obtain ⟨q, hq, hwf, hlog⟩ := push_all_spec vs (WF_empty : (empty : Queue α).WF)
  rw [logical_empty, List.nil_append] at hlog
  obtain ⟨q1, hq1, _, hlog1⟩ := pop_n_spec vs [] hwf (by simpa using hlog)
  have hnum : q1.num_items = 0 := by
    have := length_logical q1
    rw [hlog1] at this
    simpa using this.symm
  exact ⟨q, q1, hq, hq1, hnum, by simp [IsEmpty, hnum]⟩

/-- C2. `push_back` on a full well-formed queue (wrapped or not) returns normally; afterwards
    the start offset is 0, slots `0 … count-1` of the backing store hold the old logical
    contents in order, slot `count` holds the new value, the count has grown by one, and the
    logical contents are the old ones followed by the new value. -/
theorem push_back_full_keeps_order [Zero α] (q : Queue α) (v : α) (hwf : q.WF)
    (hfull : q.num_items = q.Capacity) :
    ∃ q1, push_back q v = some q1 ∧ q1.first_item = 0
      ∧ q1.items.take q.num_items = logical q
      ∧ q1.items[q.num_items]? = some v
      ∧ q1.num_items = q.num_items + 1
      ∧ logical q1 = logical q ++ [v] := by
  obtain ⟨q1, hq1, _, hlog, hnum⟩ := push_back_spec hwf v
  have hq := push_back_of_full hwf hfull v
  have hlen := length_logical q
  refine ⟨q1, hq1, ?_, ?_, ?_, hnum, hlog⟩
  · rw [hq] at hq1
    rw [← Option.some.inj hq1]
  · rw [hq] at hq1
    rw [← Option.some.inj hq1]
    simp only []
    rw [← hlen, List.take_left]
  · rw [hq] at hq1
    rw [← Option.some.inj hq1]
    simp only []
    rw [List.getElem?_append_right (by omega), hlen]
    simp

/-- Witness for C2 on a wrapped layout: start offset 2, contents `1 2 3 4` stored as
    `3 4 1 2`. -/
theorem push_back_full_keeps_order_witness :
    (⟨2, 4, [3, 4, 1, 2]⟩ : Queue Int).WF
      ∧ ∃ q1, push_back (⟨2, 4, [3, 4, 1, 2]⟩ : Queue Int) 9 = some q1 ∧ q1.first_item = 0
        ∧ q1.items.take 4 = logical (⟨2, 4, [3, 4, 1, 2]⟩ : Queue Int)
        ∧ q1.items[4]? = some 9
        ∧ q1.num_items = 4 + 1
        ∧ logical q1 = logical (⟨2, 4, [3, 4, 1, 2]⟩ : Queue Int) ++ [9] :=
  ⟨by decide, push_back_full_keeps_order ⟨2, 4, [3, 4, 1, 2]⟩ 9 (by decide) (by decide)⟩

/-- C3, as stated, fails: `Queue(1)` is full with capacity 1, and `push_back` gives it capacity
    2, not `max(4, 2*1) = 4`. -/
theorem capacity_one_doubles_to_two :
    (sized 1 : Queue Int).num_items = (sized 1 : Queue Int).Capacity
      ∧ (sized 1 : Queue Int).Capacity = 1
      ∧ push_back (sized 1 : Queue Int) 7 = some ⟨0, 2, [0, 7]⟩
      ∧ (⟨0, 2, [0, 7]⟩ : Queue Int).Capacity = 2
      ∧ (⟨0, 2, [0, 7]⟩ : Queue Int).Capacity ≠ max 4 (2 * (sized 1 : Queue Int).Capacity) := by
  decide

/-- C3, amended. `push_back` on a full well-formed queue of capacity `C` returns normally with
    capacity 4 when `C = 0` and capacity `2*C` otherwise; that is `max(4, 2*C)` for every `C`
    other than 1. -/
theorem growth_rule [Zero α] (q : Queue α) (v : α) (hwf : q.WF)
    (hfull : q.num_items = q.Capacity) :
    ∃ q1, push_back q v = some q1
      ∧ q1.Capacity = (if q.Capacity = 0 then 4 else 2 * q.Capacity)
      ∧ (q.Capacity ≠ 1 → q1.Capacity = max 4 (2 * q.Capacity)) := by
  have hq := push_back_of_full hwf hfull v
  have hlen := length_logical q
  have hcap : (logical q ++ v :: List.replicate
      ((if q.items.length = 0 then 4 else q.items.length * 2) - q.num_items - 1) 0).length
      = if q.items.length = 0 then 4 else 2 * q.items.length := by
    simp only [List.length_append, List.length_cons, List.length_replicate, hlen]
    unfold Capacity at hfull
    split <;> omega
  refine ⟨_, hq, hcap, ?_⟩
  intro h1
  unfold Capacity at h1 ⊢
  rw [hcap]
  split
  · rename_i h0
    rw [h0]
    rfl
  · rw [max_eq_right (by omega)]

/-- Witness for C3 (amended), on a full queue of capacity 2. -/
theorem growth_rule_witness :
    ∃ q1, push_back (⟨1, 2, [5, 6]⟩ : Queue Int) 7 = some q1
      ∧ q1.Capacity = (if (⟨1, 2, [5, 6]⟩ : Queue Int).Capacity = 0 then 4
          else 2 * (⟨1, 2, [5, 6]⟩ : Queue Int).Capacity)
      ∧ ((⟨1, 2, [5, 6]⟩ : Queue Int).Capacity ≠ 1 →
          q1.Capacity = max 4 (2 * (⟨1, 2, [5, 6]⟩ : Queue Int).Capacity)) :=
  growth_rule ⟨1, 2, [5, 6]⟩ 7 (by decide) (by decide)

/-- Frame of `pop_front` on a queue with `count > 0` and `start < capacity`: the element at the
    start offset is returned, its slot is zeroed, nothing else changes but the start offset
    and the count; the logical contents lose their head when `count ≤ capacity`. -/
theorem pop_front_frame [Zero α] (q : Queue α) (hpos : 0 < q.num_items)
    (hf : q.first_item < q.Capacity) :
    ∃ x q1, pop_front q = .ret x q1
      ∧ q.items[q.first_item]? = some x
      ∧ (logical q).head? = some x
      ∧ q1.items[q.first_item]? = some 0
      ∧ (∀ j, j ≠ q.first_item → q1.items[j]? = q.items[j]?)
      ∧ q1.Capacity = q.Capacity
      ∧ q1.first_item = (q.first_item + 1) % q.Capacity
      ∧ q1.num_items + 1 = q.num_items
      ∧ (q.num_items ≤ q.Capacity → logical q = x :: logical q1) := by
  unfold Capacity at hf
  refine ⟨_, _, pop_front_of_pos hpos hf, ?_, ?_, ?_, ?_, ?_, rfl, ?_, ?_⟩
  · rw [List.getElem?_eq_getElem hf, List.getD_eq_getElem _ _ hf]
  · rw [List.head?_eq_getElem?, getElem?_logical q 0 hpos, Nat.add_zero, Nat.mod_eq_of_lt hf]
  · exact List.getElem?_set_self hf
  · intro j hj
    exact List.getElem?_set_ne (Ne.symm hj)
  · simp [Capacity]
  · simp only []
    omega
  · intro hcap
    exact logical_pop ⟨hcap, fun _ => hf⟩ hpos

/-- C5. `pop_front`, `front` and `back` throw exactly when `num_items = 0`; the error is then
    the empty-queue error, and the queue the exception leaves behind is the queue the call
    started from. -/
theorem underflow_is_atomic [Zero α] (q : Queue α) :
    ((∃ e s, pop_front q = .thrown e s) ↔ q.num_items = 0)
      ∧ ((∃ e s, front q = .thrown e s) ↔ q.num_items = 0)
      ∧ ((∃ e s, back q = .thrown e s) ↔ q.num_items = 0)
      ∧ (∀ e s, pop_front q = .thrown e s → e = .queue_is_empty ∧ s = q)
      ∧ (∀ e s, front q = .thrown e s → e = .queue_is_empty ∧ s = q)
      ∧ (∀ e s, back q = .thrown e s → e = .queue_is_empty ∧ s = q) := by
  by_cases h0 : q.num_items = 0
  · have he : q.IsEmpty = true := by simp [IsEmpty, h0]
    have hp : pop_front q = .thrown .queue_is_empty q := by simp [pop_front, he]
    have hfr : front q = .thrown .queue_is_empty q := by simp [front, he]
    have hb : back q = .thrown .queue_is_empty q := by simp [back, he]
    refine ⟨⟨fun _ => h0, fun _ => ⟨_, _, hp⟩⟩, ⟨fun _ => h0, fun _ => ⟨_, _, hfr⟩⟩,
      ⟨fun _ => h0, fun _ => ⟨_, _, hb⟩⟩, ?_, ?_, ?_⟩
    · intro e s hs
      rw [hp] at hs
      injection hs with h1 h2
      exact ⟨h1.symm, h2.symm⟩
    · intro e s hs
      rw [hfr] at hs
      injection hs with h1 h2
      exact ⟨h1.symm, h2.symm⟩
    · intro e s hs
      rw [hb] at hs
      injection hs with h1 h2
      exact ⟨h1.symm, h2.symm⟩
  · have he : q.IsEmpty = false := by simp [IsEmpty, h0]
    have hp : ∀ e s, pop_front q ≠ .thrown e s := by
      intro e s
      simp only [pop_front, he, Bool.false_eq_true, ↓reduceIte]
      cases q.items[q.first_item]? with
      | none => simp
      | some x => simp only []; split <;> simp
    have hfr : ∀ e s, front q ≠ .thrown e s := by
      intro e s
      simp only [front, he, Bool.false_eq_true, ↓reduceIte]
      split <;> simp
    have hb : ∀ e s, back q ≠ .thrown e s := by
      intro e s
      simp only [back, he, Bool.false_eq_true, ↓reduceIte]
      split <;> simp
    refine ⟨⟨fun ⟨e, s, hs⟩ => absurd hs (hp e s), fun h => absurd h h0⟩,
      ⟨fun ⟨e, s, hs⟩ => absurd hs (hfr e s), fun h => absurd h h0⟩,
      ⟨fun ⟨e, s, hs⟩ => absurd hs (hb e s), fun h => absurd h h0⟩,
      fun e s hs => absurd hs (hp e s), fun e s hs => absurd hs (hfr e s),
      fun e s hs => absurd hs (hb e s)⟩

/-- Witness for C5: a drained queue with a non-zero start offset throws and is left as it
    was. -/
theorem underflow_is_atomic_witness :
    (∃ e s, pop_front (⟨2, 0, [0, 0, 0, 0]⟩ : Queue Int) = .thrown e s)
      ∧ ∀ e s, pop_front (⟨2, 0, [0, 0, 0, 0]⟩ : Queue Int) = .thrown e s →
          e = .queue_is_empty ∧ s = ⟨2, 0, [0, 0, 0, 0]⟩ :=
  ⟨(underflow_is_atomic (⟨2, 0, [0, 0, 0, 0]⟩ : Queue Int)).1.mpr rfl,
    (underflow_is_atomic (⟨2, 0, [0, 0, 0, 0]⟩ : Queue Int)).2.2.2.1⟩

/-! ### Equality, `sum`, `front` and `back` -/

theorem op_eq_of_WF [Zero α] [DecidableEq α] {a b : Queue α} (ha : a.WF) (hb : b.WF) :
    op_eq a b = some (decide (a.num_items = b.num_items ∧ logical a = logical b)) := by
  by_cases hn : a.num_items = b.num_items
  · have hloop := eq_loop_spec a b (logical a) (logical b) (length_logical a)
      (by rw [length_logical, hn]) (fun i hi => deref_eq_logical ha i hi)
      (fun i hi => deref_eq_logical hb i (by omega)) a.num_items 0 (by omega)
    simp only [Nat.add_zero, List.drop_zero] at hloop
    have hbeg : a.begin = ⟨a.first_item⟩ := rfl
    have hbeg2 : b.begin = ⟨b.first_item⟩ := rfl
    simp only [op_eq, hn, ne_eq, not_true_eq_false, if_false, true_and]
    rw [← hn, hbeg, hbeg2, hloop]
  · simp [op_eq, hn]

/-- C6. For well-formed queues `a == b` returns normally, and it is true exactly when the two
    have the same count and the same logical contents; capacities, start offsets and slots
    outside the logical window play no part. `a != b` is the negation. -/
theorem equality_is_logical [Zero α] [DecidableEq α] (a b : Queue α) (ha : a.WF) (hb : b.WF) :
    (op_eq a b = some true ↔ (a.num_items = b.num_items ∧ logical a = logical b))
      ∧ (op_eq a b = some false ↔ ¬ (a.num_items = b.num_items ∧ logical a = logical b))
      ∧ (op_ne a b = some false ↔ (a.num_items = b.num_items ∧ logical a = logical b))
      ∧ (op_ne a b = some true ↔ ¬ (a.num_items = b.num_items ∧ logical a = logical b)) := by
  have h := op_eq_of_WF ha hb
  simp only [op_ne, h, Option.map_some', Option.some.injEq, decide_eq_true_eq,
    decide_eq_false_iff_not, Bool.not_eq_false', Bool.not_eq_true', and_self]

/-- Witness for C6: the same contents `1 2 3` in two layouts, one of them wrapped, with
    different capacities and different values outside the logical window. -/
theorem equality_is_logical_witness :
    op_eq (⟨3, 3, [2, 3, 8, 1]⟩ : Queue Int) ⟨1, 3, [7, 1, 2, 3, 0, 9]⟩ = some true
      ↔ ((⟨3, 3, [2, 3, 8, 1]⟩ : Queue Int).num_items
          = (⟨1, 3, [7, 1, 2, 3, 0, 9]⟩ : Queue Int).num_items
        ∧ logical (⟨3, 3, [2, 3, 8, 1]⟩ : Queue Int)
          = logical (⟨1, 3, [7, 1, 2, 3, 0, 9]⟩ : Queue Int)) :=
  (equality_is_logical ⟨3, 3, [2, 3, 8, 1]⟩ ⟨1, 3, [7, 1, 2, 3, 0, 9]⟩ (by decide)
    (by decide)).1

theorem sum_of_WF [AddMonoid α] {q : Queue α} (h : q.WF) :
    sum q = .ret (logical q).sum q := by
  have hloop := sum_loop_spec q (logical q) (length_logical q)
    (fun i hi => deref_eq_logical h i hi) q.num_items 0 0 (by omega)
  have hbeg : q.begin = ⟨q.first_item⟩ := rfl
  simp only [Nat.add_zero, List.drop_zero] at hloop
  simp only [sum, hbeg, hloop, List.sum_eq_foldl]

/-- C7. On a well-formed queue `sum()` returns the sum of the logical contents, taken in the
    addition of the element type, and leaves the queue as it was; after `push_back` of
    `v1 … vk` on the empty queue, `sum()` is `v1 + … + vk`. -/
theorem sum_is_logical_sum [AddMonoid α] (q : Queue α) (hwf : q.WF) (vs : List α) :
    sum q = .ret (logical q).sum q
      ∧ ∃ q1, push_all empty vs = some q1 ∧ sum q1 = .ret vs.sum q1 := by
  refine ⟨sum_of_WF hwf, ?_⟩
  obtain ⟨q1, hq1, hwf1, hlog1⟩ := push_all_spec vs (WF_empty : (empty : Queue α).WF)
  rw [logical_empty, List.nil_append] at hlog1
  refine ⟨q1, hq1, ?_⟩
  rw [sum_of_WF hwf1, hlog1]

/-- Witness for C7, on a wrapped layout. -/
theorem sum_is_logical_sum_witness :
    sum (⟨2, 3, [30, 0, 10, 20]⟩ : Queue Int)
        = .ret (logical (⟨2, 3, [30, 0, 10, 20]⟩ : Queue Int)).sum ⟨2, 3, [30, 0, 10, 20]⟩
      ∧ ∃ q1, push_all (empty : Queue Int) [1, 2, 3, 4, 5] = some q1
        ∧ sum q1 = .ret ([1, 2, 3, 4, 5] : List Int).sum q1 :=
  sum_is_logical_sum ⟨2, 3, [30, 0, 10, 20]⟩ (by decide) [1, 2, 3, 4, 5]

theorem front_back_of_WF [Zero α] {q : Queue α} (hwf : q.WF) (hpos : 0 < q.num_items) :
    front q = .ret q.first_item q
      ∧ read q q.first_item = (logical q).head?
      ∧ back q = .ret ((q.first_item + q.num_items - 1) % q.Capacity) q
      ∧ read q ((q.first_item + q.num_items - 1) % q.Capacity) = (logical q).getLast? := by
  have hcap := hwf.1
  have hf := hwf.2 (by omega)
  have hne : q.IsEmpty = false := by simp [IsEmpty]; omega
  have hlast : q.first_item + q.num_items - 1 = q.first_item + (q.num_items - 1) := by omega
  have hidx := GetVectorIndex_eq_mod q (q.first_item + q.num_items - 1) (by omega)
  refine ⟨?_, ?_, ?_, ?_⟩
  · simp [front, hne, hf]
  · rw [List.head?_eq_getElem?, getElem?_logical_of_WF hwf 0 hpos, Nat.add_zero,
      Nat.mod_eq_of_lt hf, read]
  · simp only [back, hne, Bool.false_eq_true, ↓reduceIte, hidx, Capacity]
    rw [if_pos (Nat.mod_lt _ (by omega))]
  · rw [List.getLast?_eq_getElem?, length_logical,
      getElem?_logical_of_WF hwf (q.num_items - 1) (by omega), read, hlast, Capacity]

/-- C9. On a well-formed non-empty queue `front()` refers to the slot at the start offset,
    which holds the first logical element, and `back()` refers to the slot
    `(start + count - 1) mod capacity`, which holds the last one; and on any well-formed queue
    `back()` right after `push_back(v)` refers to a slot holding `v`. -/
theorem front_back_nonempty [Zero α] (q : Queue α) (hwf : q.WF) (hpos : 0 < q.num_items)
    (p : Queue α) (hp : p.WF) (v : α) :
    (∃ x y, front q = .ret q.first_item q
        ∧ read q q.first_item = some x ∧ (logical q).head? = some x
        ∧ back q = .ret ((q.first_item + q.num_items - 1) % q.Capacity) q
        ∧ read q ((q.first_item + q.num_items - 1) % q.Capacity) = some y
        ∧ (logical q).getLast? = some y)
      ∧ ∃ p1 slot, push_back p v = some p1 ∧ back p1 = .ret slot p1 ∧ read p1 slot = some v := by
  constructor
  · obtain ⟨h1, h2, h3, h4⟩ := front_back_of_WF hwf hpos
    have hlen := length_logical q
    obtain ⟨x, hx⟩ : ∃ x, (logical q).head? = some x := by
      cases hl : logical q with
      | nil => rw [hl] at hlen; simp at hlen; omega
      | cons a l => exact ⟨a, rfl⟩
    obtain ⟨y, hy⟩ : ∃ y, (logical q).getLast? = some y := by
      rw [List.getLast?_eq_getElem?]
      exact ⟨_, List.getElem?_eq_getElem (by omega)⟩
    exact ⟨x, y, h1, by rw [h2, hx], hx, h3, by rw [h4, hy], hy⟩
  · obtain ⟨p1, hp1, hwf1, hlog1, hnum1⟩ := push_back_spec hp v
    obtain ⟨_, _, h3, h4⟩ := front_back_of_WF hwf1 (by omega)
    refine ⟨p1, _, hp1, h3, ?_⟩
    rw [h4, hlog1, List.getLast?_concat]

/-- Witness for C9: a wrapped queue with contents `1 2 3` stored as `2 3 _ 1`. -/
theorem front_back_nonempty_witness :
    (∃ x y, front (⟨3, 3, [2, 3, 0, 1]⟩ : Queue Int) = .ret 3 ⟨3, 3, [2, 3, 0, 1]⟩
        ∧ read (⟨3, 3, [2, 3, 0, 1]⟩ : Queue Int) 3 = some x
        ∧ (logical (⟨3, 3, [2, 3, 0, 1]⟩ : Queue Int)).head? = some x
        ∧ back (⟨3, 3, [2, 3, 0, 1]⟩ : Queue Int)
            = .ret ((3 + 3 - 1) % (⟨3, 3, [2, 3, 0, 1]⟩ : Queue Int).Capacity)
                ⟨3, 3, [2, 3, 0, 1]⟩
        ∧ read (⟨3, 3, [2, 3, 0, 1]⟩ : Queue Int)
            ((3 + 3 - 1) % (⟨3, 3, [2, 3, 0, 1]⟩ : Queue Int).Capacity) = some y
        ∧ (logical (⟨3, 3, [2, 3, 0, 1]⟩ : Queue Int)).getLast? = some y)
      ∧ ∃ p1 slot, push_back (⟨3, 3, [2, 3, 0, 1]⟩ : Queue Int) 4 = some p1
        ∧ back p1 = .ret slot p1 ∧ read p1 slot = some 4 :=
  front_back_nonempty ⟨3, 3, [2, 3, 0, 1]⟩ (by decide) (by decide) ⟨3, 3, [2, 3, 0, 1]⟩
    (by decide) 4

/-! ### The invariant -/

theorem Inv_of_WF {q : Queue α} (h : q.WF) : q.Inv :=
  ⟨h.1, fun hpos => h.2 (Nat.lt_of_lt_of_le hpos h.1)⟩

theorem WF_sized [Zero α] (n : Nat) : (sized n : Queue α).WF := by
  simp [WF, sized]

theorem WF_filled (n : Nat) (value : α) : (filled n value).WF := by
  simp [WF, filled]

theorem WF_of_init (init : List α) : (of_init init).WF := by
  simp [WF, of_init]

theorem WF_copy {q : Queue α} (h : q.WF) : (copy q).WF := h

theorem WF_move_new {q : Queue α} (h : q.WF) : (move q).1.WF := h

theorem WF_move_old (q : Queue α) : (move q).2.WF := by
  simp [WF, move]

theorem WF_clear (q : Queue α) : (clear q).WF := by
  simp [WF, clear]

theorem WF_assign {q : Queue α} (h : q.WF) (slot : Nat) (v : α) : (assign q slot v).WF := by
  simp only [WF, assign, List.length_set]
  exact h

theorem WF_push_back [Zero α] {q q1 : Queue α} {v : α} (h : q.WF)
    (hq1 : push_back q v = some q1) : q1.WF := by
  obtain ⟨q2, hq2, hwf, _⟩ := push_back_spec h v
  rw [hq2] at hq1
  rw [← Option.some.inj hq1]
  exact hwf

theorem pop_front_cases [Zero α] {q : Queue α} (h : q.WF) :
    (q.num_items = 0 ∧ pop_front q = .thrown .queue_is_empty q)
      ∨ (0 < q.num_items ∧ ∃ x q1, pop_front q = .ret x q1 ∧ q1.WF) := by
  by_cases h0 : q.num_items = 0
  · left
    exact ⟨h0, by simp [pop_front, IsEmpty, h0]⟩
  · right
    have hpos : 0 < q.num_items := Nat.pos_of_ne_zero h0
    have hcap := h.1
    have hf := h.2 (by omega)
    refine ⟨hpos, _, _, pop_front_of_pos hpos hf, ?_, ?_⟩
    · simp only [List.length_set]
      omega
    · intro hc
      simp only [List.length_set] at hc ⊢
      exact Nat.mod_lt _ hc

theorem WF_pop_front [Zero α] {q : Queue α} (h : q.WF) :
    (∀ x q1, pop_front q = .ret x q1 → q1.WF)
      ∧ (∀ e q1, pop_front q = .thrown e q1 → q1.WF) := by
  rcases pop_front_cases h with ⟨_, ht⟩ | ⟨_, x, q2, hr, hwf⟩
  · constructor
    · intro x q1 hx
      rw [ht] at hx
      cases hx
    · intro e q1 he
      rw [ht] at he
      cases he
      exact h
  · constructor
    · intro x1 q1 hx
      rw [hr] at hx
      cases hx
      exact hwf
    · intro e q1 he
      rw [hr] at he
      cases he

theorem front_state {q q1 : Queue α} {slot : Nat} (h : front q = .ret slot q1) : q1 = q := by
  unfold front at h
  split at h
  · cases h
  · split at h
    · cases h
      rfl
    · cases h

theorem back_state {q q1 : Queue α} {slot : Nat} (h : back q = .ret slot q1) : q1 = q := by
  unfold back at h
  split at h
  · cases h
  · simp only [] at h
    split at h
    · cases h
      rfl
    · cases h

theorem WF_of_Reach [Zero α] {permit : Queue α → Nat → Prop} {q : Queue α}
    {held : List Nat} (h : Reach permit q held) : q.WF := by
  induction h with
  | empty => exact WF_empty
  | sized n => exact WF_sized n
  | filled n value => exact WF_filled n value
  | of_init init => exact WF_of_init init
  | copy _ ih => exact WF_copy ih
  | move_new _ ih => exact WF_move_new ih
  | move_old _ _ => exact WF_move_old _
  | push_back_in_place _ _ hq ih => exact WF_push_back ih hq
  | push_back_realloc _ _ hq ih => exact WF_push_back ih hq
  | pop_front _ hq ih => exact (WF_pop_front ih).1 _ _ hq
  | pop_front_thrown _ hq ih => exact (WF_pop_front ih).2 _ _ hq
  | clear _ _ => exact WF_clear _
  | front _ hq ih =>
    rw [front_state hq]
    exact ih
  | back _ hq ih =>
    rw [back_state hq]
    exact ih
  | assign v _ _ _ ih => exact WF_assign ih _ v

theorem WF_of_Reachable [Zero α] {q : Queue α} (h : Reachable q) : q.WF := by
  obtain ⟨held, hr⟩ := h
  exact WF_of_Reach hr

end Queue

namespace Erasure

namespace MDPAdapter

variable {S : Type}

/-! ### The adapter -/

theorem IncorporateActions_of_origin (self : MDPAdapter S) (states : StateAdapter S)
    (modify : S → Int → S) (hm : self.mdp.ModifyStateWithAction = some modify)
    (ho : states.hash = self.mdp_int_hash) :
    self.IncorporateActions states = .ret () ⟨states.hash, modify states.state 123⟩ := by
  simp [IncorporateActions, hm, ToState, ho]

/-- C10, the code at the failing input. For the model that records the action applied, an
    adapter with hash 1 and a handle of that adapter: `IncorporateActions` leaves the state at
    123, whereas applying the requested action 5 leaves it at 5. -/
theorem incorporate_actions_applies_123 :
    IncorporateActions recording_adapter ⟨1, 0⟩ = .ret () ⟨1, 123⟩
      ∧ ApplyAction_spec recording_adapter ⟨1, 0⟩ 5 = .ret () ⟨1, 5⟩
      ∧ IncorporateActions recording_adapter ⟨1, 0⟩
          ≠ ApplyAction_spec recording_adapter ⟨1, 0⟩ 5 := by
  decide

end MDPAdapter

end Erasure

end DynaPlex

namespace DynaPlex

namespace Queue

variable {α : Type}

/-! ### Frame of `push_back`, sized construction -/

/-- C19. On a well-formed queue with `count < capacity`, `push_back(v)` returns normally,
    keeps the capacity and the start offset, writes `v` to slot `(start + count) mod capacity`
    (the index `GetVectorIndex` computes), leaves every other slot as it was, raises the count
    by one, and appends `v` to the logical contents; and after a `pop_front` that returned
    normally on a full well-formed queue, `push_back` keeps the capacity. -/
theorem push_back_below_capacity [Zero α] (q : Queue α) (v : α) (hwf : q.WF)
    (hlt : q.num_items < q.Capacity) (p : Queue α) (hp : p.WF)
    (hpfull : p.num_items = p.Capacity) :
    (∃ q1, push_back q v = some q1
        ∧ q1.Capacity = q.Capacity
        ∧ q1.first_item = q.first_item
        ∧ q.GetVectorIndex (q.first_item + q.num_items)
            = (q.first_item + q.num_items) % q.Capacity
        ∧ q1.items[(q.first_item + q.num_items) % q.Capacity]? = some v
        ∧ (∀ j, j ≠ (q.first_item + q.num_items) % q.Capacity → q1.items[j]? = q.items[j]?)
        ∧ q1.num_items = q.num_items + 1
        ∧ logical q1 = logical q ++ [v])
      ∧ ∀ x p1, pop_front p = .ret x p1 →
          ∃ p2, push_back p1 v = some p2 ∧ p2.Capacity = p.Capacity
            ∧ p2.first_item = p1.first_item := by
  unfold Capacity at hlt hpfull ⊢
  have hf := hwf.2 (by omega)
  constructor
  · refine ⟨_, push_back_of_not_full hwf hlt v, ?_, rfl, ?_, ?_, ?_, rfl,
      logical_push_not_full hwf hlt v⟩
    · simp
    · exact GetVectorIndex_eq_mod q _ (by omega)
    · exact List.getElem?_set_self (Nat.mod_lt _ (by omega))
    · intro j hj
      exact List.getElem?_set_ne (Ne.symm hj)
  · intro x p1 hpop
    rcases pop_front_cases hp with ⟨_, ht⟩ | ⟨hpos, y, p3, hr, hwf3⟩
    · rw [ht] at hpop
      cases hpop
    · have hpf := hp.2 (by omega)
      have hexp := pop_front_of_pos hpos hpf
      rw [hexp] at hr hpop
      cases hpop
      cases hr
      have hnf : (⟨(p.first_item + 1) % p.items.length, p.num_items - 1,
          p.items.set p.first_item 0⟩ : Queue α).num_items
          < (⟨(p.first_item + 1) % p.items.length, p.num_items - 1,
          p.items.set p.first_item 0⟩ : Queue α).items.length := by
        simp only [List.length_set]
        omega
      refine ⟨_, push_back_of_not_full hwf3 hnf v, ?_, rfl⟩
      simp

/-- Witness for C19: a wrapped queue with one free slot, and a full queue. -/
theorem push_back_below_capacity_witness :
    (∃ q1, push_back (⟨2, 3, [3, 4, 1, 2]⟩ : Queue Int) 9 = some q1
        ∧ q1.Capacity = (⟨2, 3, [3, 4, 1, 2]⟩ : Queue Int).Capacity
        ∧ q1.first_item = 2
        ∧ (⟨2, 3, [3, 4, 1, 2]⟩ : Queue Int).GetVectorIndex (2 + 3)
            = (2 + 3) % (⟨2, 3, [3, 4, 1, 2]⟩ : Queue Int).Capacity
        ∧ q1.items[(2 + 3) % (⟨2, 3, [3, 4, 1, 2]⟩ : Queue Int).Capacity]? = some 9
        ∧ (∀ j, j ≠ (2 + 3) % (⟨2, 3, [3, 4, 1, 2]⟩ : Queue Int).Capacity →
            q1.items[j]? = (⟨2, 3, [3, 4, 1, 2]⟩ : Queue Int).items[j]?)
        ∧ q1.num_items = 3 + 1
        ∧ logical q1 = logical (⟨2, 3, [3, 4, 1, 2]⟩ : Queue Int) ++ [9])
      ∧ ∀ x p1, pop_front (⟨2, 4, [3, 4, 1, 2]⟩ : Queue Int) = .ret x p1 →
          ∃ p2, push_back p1 9 = some p2
            ∧ p2.Capacity = (⟨2, 4, [3, 4, 1, 2]⟩ : Queue Int).Capacity
            ∧ p2.first_item = p1.first_item :=
  push_back_below_capacity ⟨2, 3, [3, 4, 1, 2]⟩ 9 (by decide) (by decide)
    ⟨2, 4, [3, 4, 1, 2]⟩ (by decide) (by decide)

theorem logical_filled [Zero α] (n : Nat) (value : α) :
    logical (filled n value) = List.replicate n value := by
  have h := logical_of_front (List.replicate n value) ([] : List α)
  simpa [filled] using h

theorem logical_sized [Zero α] (n : Nat) :
    logical (sized n : Queue α) = List.replicate n 0 :=
  logical_filled n 0

/-- C20. The sized constructors build elements: `Queue(n)` has count and capacity `n`, its
    logical contents are `n` zeros, it is not empty when `n > 0`, and `sum()` is zero;
    `Queue(n, value)` has count and capacity `n` and logical contents `n` times `value`. A
    following `push_back(v)` finds the queue full, moves to a backing store of another
    capacity (4 for `n = 0`, `2n` otherwise) and yields the initial elements followed by
    `v`. -/
theorem sized_construction [AddMonoid α] (n : Nat) (value v : α) :
    ((sized n : Queue α).num_items = n ∧ (sized n : Queue α).Capacity = n
        ∧ logical (sized n : Queue α) = List.replicate n 0
        ∧ (0 < n → (sized n : Queue α).IsEmpty = false)
        ∧ sum (sized n : Queue α) = .ret 0 (sized n))
      ∧ ((filled n value).num_items = n ∧ (filled n value).Capacity = n
        ∧ logical (filled n value) = List.replicate n value)
      ∧ (∃ q1, push_back (sized n : Queue α) v = some q1
        ∧ q1.Capacity = (if n = 0 then 4 else 2 * n) ∧ q1.Capacity ≠ n
        ∧ q1.num_items = n + 1 ∧ logical q1 = List.replicate n 0 ++ [v])
      ∧ (∃ q1, push_back (filled n value) v = some q1
        ∧ q1.Capacity = (if n = 0 then 4 else 2 * n) ∧ q1.Capacity ≠ n
        ∧ q1.num_items = n + 1 ∧ logical q1 = List.replicate n value ++ [v]) := by
  have hpush : ∀ w : α, ∃ q1, push_back (filled n w) v = some q1
      ∧ q1.Capacity = (if n = 0 then 4 else 2 * n) ∧ q1.Capacity ≠ n
      ∧ q1.num_items = n + 1 ∧ logical q1 = List.replicate n w ++ [v] := by
    intro w
    have hwf := WF_filled n w
    have hfull : (filled n w).num_items = (filled n w).items.length := by simp [filled]
    obtain ⟨q1, hq1, _, hlog, hnum⟩ := push_back_spec hwf v
    have hq := push_back_of_full hwf hfull v
    have hcap : q1.Capacity = (if n = 0 then 4 else 2 * n) := by
      rw [hq] at hq1
      rw [← Option.some.inj hq1]
      simp only [Capacity, List.length_append, List.length_cons, List.length_replicate,
        length_logical, filled]
      split <;> omega
    refine ⟨q1, hq1, hcap, ?_, hnum, ?_⟩
    · rw [hcap]
      split <;> omega
    · rw [hlog, logical_filled]
  refine ⟨⟨rfl, by simp [Capacity, sized], logical_sized n, ?_, ?_⟩,
    ⟨rfl, by simp [Capacity, filled], logical_filled n value⟩, hpush 0, hpush value⟩
  · intro hn
    simp [IsEmpty, sized]
    omega
  · rw [sum_of_WF (WF_sized n), logical_sized]
    simp

/-- Witness for C20 at `n = 3`. -/
theorem sized_construction_witness :
    (0 < 3 → (sized 3 : Queue Int).IsEmpty = false)
      ∧ sum (sized 3 : Queue Int) = .ret 0 (sized 3)
      ∧ ∃ q1, push_back (filled 3 (7 : Int)) 9 = some q1
        ∧ q1.Capacity = (if 3 = 0 then 4 else 2 * 3) ∧ q1.Capacity ≠ 3
        ∧ q1.num_items = 3 + 1 ∧ logical q1 = List.replicate 3 7 ++ [9] :=
  ⟨(sized_construction 3 (7 : Int) 9).1.2.2.2.1, (sized_construction 3 (7 : Int) 9).1.2.2.2.2,
    (sized_construction 3 (7 : Int) 9).2.2.2⟩

/-! ### Index safety -/

/-- C18. Under the ring-buffer invariant every index the member functions compute lies inside
    the backing store: for an iterator in `[begin, end)` the argument of `GetVectorIndex` is
    below twice the capacity, one subtraction makes it the residue modulo the capacity, and the
    dereference is defined; on a non-empty queue `front`, `back` and `pop_front` index below
    the capacity and `first_item + num_items - 1` does not underflow; `push_back` (after the
    reallocation when there is one, whose copy loop stays in bounds) indexes below the
    capacity; and `GetVectorIndex` subtracts only when its argument is at least the
    capacity. -/
theorem index_safety [Zero α] (q : Queue α) (v : α) (hwf : q.WF) :
    (∀ i, i < q.num_items →
        q.first_item + i < 2 * q.Capacity
        ∧ q.GetVectorIndex (q.first_item + i) = (q.first_item + i) % q.Capacity
        ∧ q.GetVectorIndex (q.first_item + i) < q.Capacity
        ∧ ∃ x, q.deref ⟨q.first_item + i⟩ = some x)
      ∧ (0 < q.num_items →
        q.first_item < q.Capacity
        ∧ 1 ≤ q.first_item + q.num_items
        ∧ q.first_item + q.num_items - 1 < 2 * q.Capacity
        ∧ q.GetVectorIndex (q.first_item + q.num_items - 1) < q.Capacity
        ∧ front q = .ret q.first_item q
        ∧ back q = .ret (q.GetVectorIndex (q.first_item + q.num_items - 1)) q
        ∧ ∃ x q1, pop_front q = .ret x q1 ∧ q.items[q.first_item]? = some x)
      ∧ (front q ≠ .undefined ∧ back q ≠ .undefined ∧ pop_front q ≠ .undefined)
      ∧ (∃ q0 q1, expand q = some q0
        ∧ q0.first_item + q0.num_items < 2 * q0.Capacity
        ∧ q0.GetVectorIndex (q0.first_item + q0.num_items) < q0.Capacity
        ∧ push_back q v = some q1)
      ∧ (∀ a, a < 2 * q.Capacity → q.GetVectorIndex a < q.Capacity
        ∧ (q.Capacity ≤ a → q.GetVectorIndex a + q.Capacity = a)
        ∧ (a < q.Capacity → q.GetVectorIndex a = a)) := by
  unfold Capacity
  have hcap := hwf.1
  have hnonempty : 0 < q.num_items →
      q.first_item < q.items.length
      ∧ 1 ≤ q.first_item + q.num_items
      ∧ q.first_item + q.num_items - 1 < 2 * q.items.length
      ∧ q.GetVectorIndex (q.first_item + q.num_items - 1) < q.items.length
      ∧ front q = .ret q.first_item q
      ∧ back q = .ret (q.GetVectorIndex (q.first_item + q.num_items - 1)) q
      ∧ ∃ x q1, pop_front q = .ret x q1 ∧ q.items[q.first_item]? = some x := by
    intro hpos
    have hf := hwf.2 (by omega)
    have hlt : q.first_item + q.num_items - 1 < 2 * q.items.length := by omega
    have hidx := GetVectorIndex_lt q _ hlt
    have hne : q.IsEmpty = false := by simp [IsEmpty]; omega
    refine ⟨hf, by omega, hlt, hidx, ?_, ?_, _, _, pop_front_of_pos hpos hf, ?_⟩
    · simp [front, hne, hf]
    · simp [back, hne, hidx]
    · rw [List.getElem?_eq_getElem hf, List.getD_eq_getElem _ _ hf]
  refine ⟨?_, hnonempty, ?_, ?_, ?_⟩
  · intro i hi
    have hlt := hwf.offset_lt hi
    have hidx := GetVectorIndex_lt q _ hlt
    refine ⟨hlt, GetVectorIndex_eq_mod q _ hlt, hidx, ?_⟩
    exact ⟨_, by unfold deref; exact List.getElem?_eq_getElem hidx⟩
  · by_cases h0 : q.num_items = 0
    · have he : q.IsEmpty = true := by simp [IsEmpty, h0]
      refine ⟨?_, ?_, ?_⟩
      · simp [front, he]
      · simp [back, he]
      · simp [pop_front, he]
    · obtain ⟨_, _, _, _, hfr, hb, x, q1, hp, _⟩ := hnonempty (Nat.pos_of_ne_zero h0)
      refine ⟨?_, ?_, ?_⟩
      · rw [hfr]; simp
      · rw [hb]; simp
      · rw [hp]; simp
  · obtain ⟨q1, hq1, _⟩ := push_back_spec hwf v
    by_cases hfull : q.num_items = q.items.length
    · have hlen := length_logical q
      refine ⟨_, q1, expand_of_full hwf hfull, ?_, ?_, hq1⟩
      · simp only [Capacity, List.length_append, List.length_replicate, hlen]
        split <;> omega
      · apply GetVectorIndex_lt
        simp only [List.length_append, List.length_replicate, hlen]
        split <;> omega
    · have hnf : q.num_items < q.items.length := lt_of_le_of_ne hcap hfull
      have hf := hwf.2 (by omega)
      refine ⟨q, q1, expand_of_not_full hfull, ?_, ?_, hq1⟩
      · omega
      · exact GetVectorIndex_lt q _ (by omega)
  · intro a ha
    refine ⟨GetVectorIndex_lt q a ha, ?_, ?_⟩
    · intro hge
      unfold GetVectorIndex
      rw [if_pos hge]
      omega
    · intro hlt
      unfold GetVectorIndex
      rw [if_neg (by omega)]

/-- Witness for C18, on a wrapped full queue. -/
theorem index_safety_witness :
    (⟨2, 4, [3, 4, 1, 2]⟩ : Queue Int).first_item < (⟨2, 4, [3, 4, 1, 2]⟩ : Queue Int).Capacity
      ∧ back (⟨2, 4, [3, 4, 1, 2]⟩ : Queue Int)
          = .ret ((⟨2, 4, [3, 4, 1, 2]⟩ : Queue Int).GetVectorIndex (2 + 4 - 1))
              ⟨2, 4, [3, 4, 1, 2]⟩
      ∧ front (⟨2, 4, [3, 4, 1, 2]⟩ : Queue Int) ≠ .undefined :=
  ⟨((index_safety (⟨2, 4, [3, 4, 1, 2]⟩ : Queue Int) 9 (by decide)).2.1 (by decide)).1,
    ((index_safety (⟨2, 4, [3, 4, 1, 2]⟩ : Queue Int) 9 (by decide)).2.1
      (by decide)).2.2.2.2.2.1,
    (index_safety (⟨2, 4, [3, 4, 1, 2]⟩ : Queue Int) 9 (by decide)).2.2.1.1⟩

/-! ### Slots outside the logical window -/

theorem mod_succ_offset (f c i : Nat) :
    ((f + 1) % c + i) % c = (f + (i + 1)) % c := by
  rw [Nat.add_mod, Nat.mod_mod, ← Nat.add_mod]
  congr 1
  omega

theorem zero_outside_of_front [Zero α] (M : List α) (m j : Nat)
    (hj : j < (M ++ List.replicate m (0 : α)).length)
    (hout : ∀ i, i < M.length → (0 + i) % (M ++ List.replicate m (0 : α)).length ≠ j) :
    (M ++ List.replicate m (0 : α))[j]? = some 0 := by
  have hge : M.length ≤ j := by
    by_contra hlt
    have hlt1 : j < M.length := by omega
    have := hout j hlt1
    rw [Nat.zero_add, Nat.mod_eq_of_lt hj] at this
    exact this rfl
  simp only [List.length_append, List.length_replicate] at hj
  rw [List.getElem?_append_right hge, List.getElem?_replicate, if_pos (by omega)]

end Queue

end DynaPlex

namespace DynaPlex

namespace Erasure

namespace MDPAdapter

variable {S : Type}

/-! ### State origin, allowed actions, capabilities -/

theorem ToState_of_mismatch (self : MDPAdapter S) (handle : StateAdapter S)
    (hne : handle.hash ≠ self.mdp_int_hash) :
    self.ToState handle = .error .state_origin_mismatch := by
  simp [ToState, hne]

theorem ToState_of_origin (self : MDPAdapter S) (handle : StateAdapter S)
    (ho : handle.hash = self.mdp_int_hash) :
    self.ToState handle = .ok handle.state := by
  simp [ToState, ho]

/-- C11, as stated, fails: an adapter whose model has no `ModifyStateWithAction` (the
    lost-sales model) answers a handle of another origin with the missing-capability error,
    not with the state-origin error; so does `ToVarGroup` for a state type that is not
    convertible (the recording model). -/
theorem capability_test_comes_first :
    (⟨8, ⟨123⟩⟩ : StateAdapter Models.LostSales.State).hash
        ≠ Models.LostSales.adapter.mdp_int_hash
      ∧ IncorporateActions Models.LostSales.adapter ⟨8, ⟨123⟩⟩
          = .thrown (.missing_ModifyStateWithAction "LostSales") ⟨8, ⟨123⟩⟩
      ∧ IncorporateActions Models.LostSales.adapter ⟨8, ⟨123⟩⟩
          ≠ .thrown .state_origin_mismatch ⟨8, ⟨123⟩⟩
      ∧ (⟨2, 0⟩ : StateAdapter Int).hash ≠ recording_adapter.mdp_int_hash
      ∧ ToVarGroup recording_adapter ⟨2, 0⟩ = .thrown (.missing_ToVarGroup "recording") ⟨2, 0⟩
      ∧ ToVarGroup recording_adapter ⟨2, 0⟩ ≠ .thrown .state_origin_mismatch ⟨2, 0⟩ := by
  decide

/-- C11, amended. For a handle whose hash is not the adapter's, `AllowedActions` throws the
    state-origin error; `IncorporateActions` throws it when the model has
    `ModifyStateWithAction`, and `ToVarGroup` when the state is convertible; without the
    capability each throws its missing-capability error instead. In every case the handle is
    left as it was and no function of the model is applied to the state. -/
theorem origin_check (self : MDPAdapter S) (handle : StateAdapter S)
    (hne : handle.hash ≠ self.mdp_int_hash) :
    AllowedActions self handle = .thrown .state_origin_mismatch handle
      ∧ IncorporateActions self handle
          = (if self.mdp.ModifyStateWithAction.isSome then .thrown .state_origin_mismatch handle
            else .thrown (.missing_ModifyStateWithAction self.mdp_id) handle)
      ∧ ToVarGroup self handle
          = (if self.mdp.ToVarGroup.isSome then .thrown .state_origin_mismatch handle
            else .thrown (.missing_ToVarGroup self.mdp_id) handle) := by
  have ht := ToState_of_mismatch self handle hne
  refine ⟨?_, ?_, ?_⟩
  · simp [AllowedActions, ht]
  · cases hm : self.mdp.ModifyStateWithAction with
    | none => simp [IncorporateActions, hm]
    | some f => simp [IncorporateActions, hm, ht]
  · cases hm : self.mdp.ToVarGroup with
    | none => simp [ToVarGroup, hm]
    | some f => simp [ToVarGroup, hm, ht]

/-- Witness for C11 (amended): the recording adapter (hash 1) and a handle with hash 2. -/
theorem origin_check_witness :
    AllowedActions recording_adapter ⟨2, 0⟩ = .thrown .state_origin_mismatch ⟨2, 0⟩
      ∧ IncorporateActions recording_adapter ⟨2, 0⟩
          = (if recording_adapter.mdp.ModifyStateWithAction.isSome then
              .thrown .state_origin_mismatch ⟨2, 0⟩
            else .thrown (.missing_ModifyStateWithAction recording_adapter.mdp_id) ⟨2, 0⟩)
      ∧ ToVarGroup recording_adapter ⟨2, 0⟩
          = (if recording_adapter.mdp.ToVarGroup.isSome then
              .thrown .state_origin_mismatch ⟨2, 0⟩
            else .thrown (.missing_ToVarGroup recording_adapter.mdp_id) ⟨2, 0⟩) :=
  origin_check recording_adapter ⟨2, 0⟩ (by decide)

theorem foldl_push_back (range vec : List Int) :
    range.foldl (fun vec action => vec ++ [action]) vec = vec ++ range := by
  induction range generalizing vec with
  | nil => simp
  | cons a range ih => simp [List.foldl_cons, ih]

theorem count_actions_eq_length (range : List Int) :
    count_actions range = range.length := by
  have h : ∀ (l : List Int) (n : Int),
      l.foldl (fun count _ => count + 1) n = n + l.length := by
    intro l
    induction l with
    | nil => intro n; simp
    | cons a l ih =>
      intro n
      rw [List.foldl_cons, ih]
      simp only [List.length_cons, Nat.cast_add, Nat.cast_one]
      omega
  simpa [count_actions] using h range 0

/-- C12. For a handle of this adapter `AllowedActions` returns the sequence the provider yields
    for the state, in order: the length is the number of actions enumerated (the `count` of
    the first loop) and the `i`-th entry is the `i`-th action; the handle is unchanged, and a
    second call on it returns the same sequence. -/
theorem allowed_actions_in_order (self : MDPAdapter S) (handle : StateAdapter S)
    (ho : handle.hash = self.mdp_int_hash) :
    ∃ vec : List Int, AllowedActions self handle = .ret vec handle
      ∧ vec = self.provider handle.state
      ∧ (vec.length : Int) = count_actions (self.provider handle.state)
      ∧ (∀ i : Nat, vec[i]? = (self.provider handle.state)[i]?)
      ∧ ∀ vec1 handle1, AllowedActions self handle = .ret vec1 handle1 →
          AllowedActions self handle1 = .ret vec1 handle1 := by
  have hret : AllowedActions self handle = .ret (self.provider handle.state) handle := by
    simp [AllowedActions, ToState_of_origin self handle ho, reserve, foldl_push_back]
  refine ⟨_, hret, rfl, (count_actions_eq_length _).symm, fun _ => rfl, ?_⟩
  intro vec1 handle1 h1
  rw [hret] at h1
  cases h1
  exact hret

/-- Witness for C12: the recording adapter offers the actions 0 to 5. -/
theorem allowed_actions_in_order_witness :
    ∃ vec : List Int, AllowedActions recording_adapter ⟨1, 0⟩ = .ret vec ⟨1, 0⟩
      ∧ vec = recording_adapter.provider (⟨1, 0⟩ : StateAdapter Int).state
      ∧ (vec.length : Int)
          = count_actions (recording_adapter.provider (⟨1, 0⟩ : StateAdapter Int).state)
      ∧ (∀ i : Nat, vec[i]? = (recording_adapter.provider (⟨1, 0⟩ : StateAdapter Int).state)[i]?)
      ∧ ∀ vec1 handle1, AllowedActions recording_adapter ⟨1, 0⟩ = .ret vec1 handle1 →
          AllowedActions recording_adapter handle1 = .ret vec1 handle1 :=
  allowed_actions_in_order recording_adapter ⟨1, 0⟩ (by decide)

/-- C13. `GetInitialState` fails exactly when the model has no `GetInitialState`, `ToVarGroup`
    throws its missing-capability error exactly when the state is not convertible, and
    `IncorporateActions` throws its missing-capability error exactly when the model has no
    `ModifyStateWithAction`; each of these messages contains `mdp_id` and the name of the
    missing capability. -/
theorem missing_capabilities (self : MDPAdapter S) (handle : StateAdapter S) :
    (((∃ e, GetInitialState self = .error e) ↔ self.mdp.GetInitialState = none)
        ∧ (∀ e, GetInitialState self = .error e → e = .missing_GetInitialState self.mdp_id))
      ∧ (ToVarGroup self handle = .thrown (.missing_ToVarGroup self.mdp_id) handle
          ↔ self.mdp.ToVarGroup = none)
      ∧ (IncorporateActions self handle
            = .thrown (.missing_ModifyStateWithAction self.mdp_id) handle
          ↔ self.mdp.ModifyStateWithAction = none)
      ∧ (∃ text, Error.what (.missing_GetInitialState self.mdp_id) = some text
          ∧ mentions text self.mdp_id ∧ mentions text "GetInitialState")
      ∧ (∃ text, Error.what (.missing_ToVarGroup self.mdp_id) = some text
          ∧ mentions text self.mdp_id ∧ mentions text "ConvertibleToVarGroup")
      ∧ (∃ text, Error.what (.missing_ModifyStateWithAction self.mdp_id) = some text
          ∧ mentions text self.mdp_id ∧ mentions text "ModifyStateWithAction") := by
  refine ⟨⟨?_, ?_⟩, ?_, ?_, ?_, ?_, ?_⟩
  · cases hm : self.mdp.GetInitialState with
    | none => simp [GetInitialState, hm]
    | some s => simp [GetInitialState, hm]
  · intro e he
    cases hm : self.mdp.GetInitialState with
    | none =>
      simp only [GetInitialState, hm] at he
      cases he
      rfl
    | some s =>
      simp only [GetInitialState, hm] at he
      cases he
  · cases hm : self.mdp.ToVarGroup with
    | none => simp [ToVarGroup, hm]
    | some f =>
      by_cases ho : handle.hash = self.mdp_int_hash
      · simp [ToVarGroup, hm, ToState, ho]
      · simp [ToVarGroup, hm, ToState, ho]
  · cases hm : self.mdp.ModifyStateWithAction with
    | none => simp [IncorporateActions, hm]
    | some f =>
      by_cases ho : handle.hash = self.mdp_int_hash
      · simp [IncorporateActions, hm, ToState, ho]
      · simp [IncorporateActions, hm, ToState, ho]
  · exact ⟨_, rfl, ⟨_, _, rfl⟩,
      ⟨"MDP.GetInitialStateVec in MDP: " ++ self.mdp_id ++ "\nMDP must publicly define ",
        "() const returning MDP::State.", by simp only [String.append_assoc]; rfl⟩⟩
  · exact ⟨_, rfl, ⟨_, _, rfl⟩,
      ⟨"MDP.ToVarGroup(DynaPlex::State) in MDP: " ++ self.mdp_id ++ "\nState is not ",
        ".", by simp only [String.append_assoc]; rfl⟩⟩
  · exact ⟨_, rfl, ⟨_, _, rfl⟩,
      ⟨"MDP.IncorporateActions in MDP: " ++ self.mdp_id ++ "\nMDP does not publicly define ",
        "(MDP::State,int64_t) const returning double",
        by simp only [String.append_assoc]; rfl⟩⟩

/-- Witness for C13: the lost-sales adapter has no `ModifyStateWithAction`; the recording
    adapter has one. -/
theorem missing_capabilities_witness :
    IncorporateActions Models.LostSales.adapter ⟨2, ⟨123⟩⟩
        = .thrown (.missing_ModifyStateWithAction Models.LostSales.adapter.mdp_id) ⟨2, ⟨123⟩⟩
      ∧ ¬ (IncorporateActions recording_adapter ⟨1, 0⟩
        = .thrown (.missing_ModifyStateWithAction recording_adapter.mdp_id) ⟨1, 0⟩) :=
  ⟨(missing_capabilities Models.LostSales.adapter ⟨2, ⟨123⟩⟩).2.2.1.mpr rfl,
    fun h => absurd ((missing_capabilities recording_adapter ⟨1, 0⟩).2.2.1.mp h)
      (by simp [recording_adapter, recording_mdp])⟩

/-! ### Construction -/

theorem Register_random_on_empty (description : String) :
    PolicyRegistry.empty.Register "random" description
      = .ok ⟨[("random", description)]⟩ := by
  simp [PolicyRegistry.Register, PolicyRegistry.has, PolicyRegistry.empty]

theorem RegisterPolicies_on_empty (mdp : MDP S) :
    RegisterPolicies mdp PolicyRegistry.empty
      = (match mdp.RegisterPolicies with
        | some hook =>
          hook ⟨[("random", "makes a random choice between the allowed actions")]⟩
        | none => .ok ⟨[("random", "makes a random choice between the allowed actions")]⟩) := by
  simp only [RegisterPolicies, Register_random_on_empty]

theorem construct_ok (ids : Identifiers) (t_MDP : VarGroup → MDP S)
    (ActionRangeProvider : MDP S → S → List Int) (vars : VarGroup) (adapter : MDPAdapter S)
    (h : construct ids t_MDP ActionRangeProvider vars = .ok adapter) :
    adapter.unique_id = ids.UniqueIdentifier vars
      ∧ adapter.mdp_int_hash = ids.Int64Hash vars
      ∧ adapter.mdp = t_MDP vars
      ∧ adapter.mdp_id = ids.Identifier vars
      ∧ adapter.provider = ActionRangeProvider (t_MDP vars)
      ∧ RegisterPolicies (t_MDP vars) PolicyRegistry.empty = .ok adapter.policy_registry := by
  simp only [construct] at h
  cases hr : RegisterPolicies (t_MDP vars) PolicyRegistry.empty with
  | error e =>
    rw [hr] at h
    cases h
  | ok reg =>
    rw [hr] at h
    cases h
    exact ⟨rfl, rfl, rfl, rfl, rfl, rfl⟩

/-- C15. For an adapter built from the configuration `c` over a model with `GetInitialState`,
    the hash fixed at construction is `c.Int64Hash()`, `GetInitialState` returns the handle
    pairing that hash with the value of the model's `GetInitialState`, `GetPolicy` hands the
    same hash to the registry, and the initial handle of any other adapter built from `c` has
    the same hash. -/
theorem initial_state_carries_hash (S2 : Type) (ids : Identifiers) (t_MDP : VarGroup → MDP S)
    (ActionRangeProvider : MDP S → S → List Int) (c : VarGroup) (adapter : MDPAdapter S)
    (state : S) (hc : construct ids t_MDP ActionRangeProvider c = .ok adapter)
    (hs : (t_MDP c).GetInitialState = some state) :
    adapter.mdp_int_hash = ids.Int64Hash c
      ∧ GetInitialState adapter = .ok ⟨ids.Int64Hash c, state⟩
      ∧ (∀ (P : Type) (registry_GetPolicy : PolicyRegistry → MDP S → VarGroup → Int → P)
          (varGroup : VarGroup),
          GetPolicy registry_GetPolicy adapter varGroup
            = registry_GetPolicy adapter.policy_registry (t_MDP c) varGroup (ids.Int64Hash c))
      ∧ ∀ (t_MDP2 : VarGroup → MDP S2) (ActionRangeProvider2 : MDP S2 → S2 → List Int)
          (adapter2 : MDPAdapter S2) (handle2 : StateAdapter S2),
          construct ids t_MDP2 ActionRangeProvider2 c = .ok adapter2 →
          GetInitialState adapter2 = .ok handle2 → handle2.hash = ids.Int64Hash c := by
  obtain ⟨_, hhash, hmdp, _, _, _⟩ := construct_ok ids t_MDP ActionRangeProvider c adapter hc
  refine ⟨hhash, ?_, ?_, ?_⟩
  · simp [GetInitialState, hmdp, hs, hhash]
  · intro P f vg
    simp [GetPolicy, hmdp, hhash]
  · intro t_MDP2 provider2 adapter2 handle2 hc2 hg
    obtain ⟨_, hhash2, _, _, _, _⟩ := construct_ok ids t_MDP2 provider2 c adapter2 hc2
    cases hm : adapter2.mdp.GetInitialState with
    | none =>
      simp [GetInitialState, hm] at hg
    | some s =>
      simp only [GetInitialState, hm] at hg
      cases hg
      exact hhash2

/-- Witness for C15: the lost-sales model built from the configuration `p = 1`, `h = 1`. -/
theorem initial_state_carries_hash_witness :
    Models.LostSales.adapter.mdp_int_hash = example_ids.Int64Hash Models.LostSales.config
      ∧ GetInitialState Models.LostSales.adapter
          = .ok ⟨example_ids.Int64Hash Models.LostSales.config, ⟨123⟩⟩ :=
  ⟨(initial_state_carries_hash Int example_ids Models.LostSales.MDP
      (fun _ _ => [0, 1]) Models.LostSales.config Models.LostSales.adapter ⟨123⟩ rfl rfl).1,
    (initial_state_carries_hash Int example_ids Models.LostSales.MDP
      (fun _ _ => [0, 1]) Models.LostSales.config Models.LostSales.adapter ⟨123⟩ rfl rfl).2.1⟩

/-- C16. Construction starts from the empty registry and registers `"random"` first; the hook
    of the model runs after that, on a registry that holds `"random"`, and only when the model
    has one; the registry of the adapter is the outcome, and an error of the hook leaves no
    adapter. A registration of `"random"` on a registry that holds the name is refused. -/
theorem random_is_registered_first (ids : Identifiers) (t_MDP : VarGroup → MDP S)
    (ActionRangeProvider : MDP S → S → List Int) (vars : VarGroup) :
    PolicyRegistry.empty.entries = []
      ∧ PolicyRegistry.empty.Register "random"
          "makes a random choice between the allowed actions"
          = .ok ⟨[("random", "makes a random choice between the allowed actions")]⟩
      ∧ PolicyRegistry.has ⟨[("random", "makes a random choice between the allowed actions")]⟩
          "random" = true
      ∧ (∀ hook, (t_MDP vars).RegisterPolicies = some hook →
          RegisterPolicies (t_MDP vars) PolicyRegistry.empty
            = hook ⟨[("random", "makes a random choice between the allowed actions")]⟩)
      ∧ ((t_MDP vars).RegisterPolicies = none →
          RegisterPolicies (t_MDP vars) PolicyRegistry.empty
            = .ok ⟨[("random", "makes a random choice between the allowed actions")]⟩)
      ∧ (∀ adapter, construct ids t_MDP ActionRangeProvider vars = .ok adapter ↔
          (RegisterPolicies (t_MDP vars) PolicyRegistry.empty = .ok adapter.policy_registry
            ∧ adapter = ⟨ids.UniqueIdentifier vars, ids.Int64Hash vars, t_MDP vars,
                ids.Identifier vars, adapter.policy_registry,
                ActionRangeProvider (t_MDP vars)⟩))
      ∧ (∀ e, construct ids t_MDP ActionRangeProvider vars = .error e ↔
          RegisterPolicies (t_MDP vars) PolicyRegistry.empty = .error e)
      ∧ ∀ (registry : PolicyRegistry) (description : String),
          registry.has "random" = true →
          registry.Register "random" description
            = .error (.duplicate_policy_name "random") := by
  refine ⟨rfl, Register_random_on_empty _, by decide, ?_, ?_, ?_, ?_, ?_⟩
  · intro hook hh
    rw [RegisterPolicies_on_empty, hh]
  · intro hn
    rw [RegisterPolicies_on_empty, hn]
  · intro adapter
    cases hr : RegisterPolicies (t_MDP vars) PolicyRegistry.empty with
    | error e => simp [construct, hr]
    | ok reg =>
      simp only [construct, hr, Except.ok.injEq]
      constructor
      · intro h
        rw [← h]
        exact ⟨rfl, rfl⟩
      · rintro ⟨h1, h2⟩
        rw [h2, h1]
  · intro e
    cases hr : RegisterPolicies (t_MDP vars) PolicyRegistry.empty with
    | error e1 => simp [construct, hr]
    | ok reg => simp [construct, hr]
  · intro registry description hhas
    simp [PolicyRegistry.Register, hhas]

/-- Witness for C16: a model whose hook registers `"random"` itself; construction fails with
    the duplicate-name error. -/
theorem random_is_registered_first_witness :
    construct example_ids (fun _ => clashing_mdp) (fun _ _ => [0]) ⟨[]⟩
      = .error (.duplicate_policy_name "random") :=
  ((random_is_registered_first example_ids (fun _ => clashing_mdp) (fun _ _ => [0])
      ⟨[]⟩).2.2.2.2.2.2.1 _).mpr
    (((random_is_registered_first example_ids (fun _ => clashing_mdp) (fun _ _ => [0])
      ⟨[]⟩).2.2.2.1 _ rfl).trans
      ((random_is_registered_first example_ids (fun _ => clashing_mdp) (fun _ _ => [0])
        ⟨[]⟩).2.2.2.2.2.2.2 _ _ (by decide)))

/-- C14, the code on the lost-sales model. `LostSales::MDP` defines no `GetStaticInfo`, so it
    fails the `static_assert`s of the adapter. Leaving those aside, for every choice of the
    identifier primitives and of the action provider: the adapter is built from the
    configuration `p = 1`, `h = 1`; `GetInitialState` returns the handle with state 123, whose
    `ToVarGroup` is the entry `state = 123`; and `IncorporateActions` throws the
    missing-capability error on every handle, leaving it as it was. -/
theorem lost_sales_cannot_apply_actions (ids : Identifiers)
    (ActionRangeProvider : MDP Models.LostSales.State → Models.LostSales.State → List Int) :
    static_asserts (Models.LostSales.MDP Models.LostSales.config) = false
      ∧ ∃ adapter initial,
        construct ids Models.LostSales.MDP ActionRangeProvider Models.LostSales.config
          = .ok adapter
        ∧ GetInitialState adapter = .ok initial
        ∧ initial = ⟨ids.Int64Hash Models.LostSales.config, ⟨123⟩⟩
        ∧ ToVarGroup adapter initial = .ret ⟨[("state", .number 123)]⟩ initial
        ∧ ∀ handle, IncorporateActions adapter handle
            = .thrown (.missing_ModifyStateWithAction (ids.Identifier Models.LostSales.config))
                handle := by
  refine ⟨rfl, _, _, rfl, rfl, rfl, ?_, ?_⟩
  · simp [ToVarGroup, ToState, Models.LostSales.MDP, Models.LostSales.State.ToVarGroup,
      VarGroup.Add, Models.LostSales.GetInitialState]
  · intro handle
    simp [IncorporateActions, Models.LostSales.MDP]

end MDPAdapter

end Erasure

end DynaPlex

namespace DynaPlex

namespace Queue

variable {α : Type}

/-! ### Properties of every queue object -/

theorem reachable_of_init [Zero α] (init : List α) : Reachable (of_init init) :=
  ⟨[], Reach.of_init init⟩

theorem reachable_pop_front [Zero α] (q q1 : Queue α) (x : α) (h : Reachable q)
    (hp : pop_front q = .ret x q1) : Reachable q1 := by
  obtain ⟨held, hr⟩ := h
  exact ⟨held, Reach.pop_front hr hp⟩

theorem reachable_push_back [Zero α] (q q1 : Queue α) (v : α) (h : Reachable q)
    (hp : push_back q v = some q1) : Reachable q1 := by
  obtain ⟨held, hr⟩ := h
  by_cases hfull : q.num_items = q.items.length
  · exact ⟨[], Reach.push_back_realloc hr hfull hp⟩
  · exact ⟨held, Reach.push_back_in_place hr hfull hp⟩

theorem reachable_move_old [Zero α] (q : Queue α) (h : Reachable q) :
    Reachable (move q).2 := by
  obtain ⟨held, hr⟩ := h
  exact ⟨[], Reach.move_old hr⟩

/-- C4. On every queue object with `count > 0` (and `start < capacity`), `pop_front` returns
    the element stored at the start offset, which is the first logical element, writes zero to
    that slot, leaves every other slot and the capacity unchanged, sets the start offset to
    `(start + 1) mod capacity`, lowers the count by exactly one, and the new logical contents
    are the old logical contents without their first element. -/
theorem pop_front_nonempty [Zero α] (q : Queue α) (hq : Reachable q) (hpos : 0 < q.num_items)
    (hf : q.first_item < q.Capacity) :
    ∃ x q1, pop_front q = .ret x q1
      ∧ q.items[q.first_item]? = some x
      ∧ (logical q).head? = some x
      ∧ q1.items[q.first_item]? = some 0
      ∧ (∀ j, j ≠ q.first_item → q1.items[j]? = q.items[j]?)
      ∧ q1.Capacity = q.Capacity
      ∧ q1.first_item = (q.first_item + 1) % q.Capacity
      ∧ q1.num_items + 1 = q.num_items
      ∧ logical q1 = (logical q).tail := by
  obtain ⟨x, q1, h1, h2, h3, h4, h5, h6, h7, h8, h9⟩ := pop_front_frame q hpos hf
  have hlog := h9 (WF_of_Reachable hq).1
  refine ⟨x, q1, h1, h2, h3, h4, h5, h6, h7, h8, ?_⟩
  rw [hlog, List.tail_cons]

/-- Witness for C4: `Queue{1, 2, 3, 5}` after three calls of `pop_front` and `push_back(6)`,
    which wraps; the next `pop_front` wraps the start offset to 0. -/
theorem pop_front_nonempty_witness :
    ∃ x q1, pop_front (⟨3, 2, [6, 0, 0, 5]⟩ : Queue Int) = .ret x q1
      ∧ (⟨3, 2, [6, 0, 0, 5]⟩ : Queue Int).items[3]? = some x
      ∧ (logical (⟨3, 2, [6, 0, 0, 5]⟩ : Queue Int)).head? = some x
      ∧ q1.items[3]? = some 0
      ∧ (∀ j, j ≠ 3 → q1.items[j]? = (⟨3, 2, [6, 0, 0, 5]⟩ : Queue Int).items[j]?)
      ∧ q1.Capacity = (⟨3, 2, [6, 0, 0, 5]⟩ : Queue Int).Capacity
      ∧ q1.first_item = (3 + 1) % (⟨3, 2, [6, 0, 0, 5]⟩ : Queue Int).Capacity
      ∧ q1.num_items + 1 = 2
      ∧ logical q1 = (logical (⟨3, 2, [6, 0, 0, 5]⟩ : Queue Int)).tail :=
  pop_front_nonempty ⟨3, 2, [6, 0, 0, 5]⟩
    (reachable_push_back ⟨3, 1, [0, 0, 0, 5]⟩ ⟨3, 2, [6, 0, 0, 5]⟩ 6
      (reachable_pop_front ⟨2, 2, [0, 0, 3, 5]⟩ ⟨3, 1, [0, 0, 0, 5]⟩ 3
        (reachable_pop_front ⟨1, 3, [0, 2, 3, 5]⟩ ⟨2, 2, [0, 0, 3, 5]⟩ 2
          (reachable_pop_front (of_init [1, 2, 3, 5]) ⟨1, 3, [0, 2, 3, 5]⟩ 1
            (reachable_of_init [1, 2, 3, 5]) (by decide))
          (by decide))
        (by decide))
      (by decide))
    (by decide) (by decide)

/-- C8. The predicate `count ≤ capacity, and start < capacity whenever count > 0` holds after
    every constructor (default, sized, filled, initializer list, copy, move, and for the
    moved-from source); on every queue object it holds before and after `push_back`,
    `pop_front` (which returns normally or throws, leaving the queue as it was) and `clear`;
    hence it holds in every reachable state. -/
theorem ring_invariant (α : Type) [Zero α] :
    ((empty : Queue α).Inv ∧ (∀ n, (sized n : Queue α).Inv)
        ∧ (∀ n (value : α), (filled n value).Inv) ∧ (∀ init : List α, (of_init init).Inv)
        ∧ (∀ q : Queue α, Reachable q → (copy q).Inv ∧ (move q).1.Inv ∧ (move q).2.Inv))
      ∧ (∀ (q : Queue α) (v : α), Reachable q →
          q.Inv ∧ ∃ q1, push_back q v = some q1 ∧ q1.Inv)
      ∧ (∀ q : Queue α, Reachable q →
          q.Inv ∧ (pop_front q = .thrown .queue_is_empty q
            ∨ ∃ x q1, pop_front q = .ret x q1 ∧ q1.Inv))
      ∧ (∀ q : Queue α, Reachable q → (clear q).Inv)
      ∧ (∀ q : Queue α, Reachable q → q.Inv) := by
  refine ⟨⟨Inv_of_WF WF_empty, fun n => Inv_of_WF (WF_sized n),
    fun n value => Inv_of_WF (WF_filled n value), fun init => Inv_of_WF (WF_of_init init),
    fun q h => ⟨Inv_of_WF (WF_copy (WF_of_Reachable h)),
      Inv_of_WF (WF_move_new (WF_of_Reachable h)), Inv_of_WF (WF_move_old q)⟩⟩,
    ?_, ?_, fun q _ => Inv_of_WF (WF_clear q), fun q h => Inv_of_WF (WF_of_Reachable h)⟩
  · intro q v h
    obtain ⟨q1, hq1, hwf, _⟩ := push_back_spec (WF_of_Reachable h) v
    exact ⟨Inv_of_WF (WF_of_Reachable h), q1, hq1, Inv_of_WF hwf⟩
  · intro q h
    refine ⟨Inv_of_WF (WF_of_Reachable h), ?_⟩
    rcases pop_front_cases (WF_of_Reachable h) with ⟨_, ht⟩ | ⟨_, x, q1, hr, hwf⟩
    · exact Or.inl ht
    · exact Or.inr ⟨x, q1, hr, Inv_of_WF hwf⟩

/-- Witness for C8: the source of a move made after two calls of `pop_front` keeps its start
    offset 2 with count 0 and capacity 0, and satisfies the predicate. -/
theorem ring_invariant_witness :
    (move (⟨2, 2, [0, 0, 5, 6]⟩ : Queue Int)).2 = ⟨2, 0, []⟩
      ∧ (move (⟨2, 2, [0, 0, 5, 6]⟩ : Queue Int)).2.Inv :=
  ⟨rfl, (ring_invariant Int).2.2.2.2 _
    (reachable_move_old ⟨2, 2, [0, 0, 5, 6]⟩
      (reachable_pop_front ⟨1, 3, [0, 4, 5, 6]⟩ ⟨2, 2, [0, 0, 5, 6]⟩ 4
        (reachable_pop_front (of_init [3, 4, 5, 6]) ⟨1, 3, [0, 4, 5, 6]⟩ 3
          (reachable_of_init [3, 4, 5, 6]) (by decide))
        (by decide)))⟩

theorem zero_outside_of_Reach [Zero α] {q : Queue α} {held : List Nat}
    (h : Reach InWindow q held) :
    ∀ j, j < q.items.length →
      (∀ i, i < q.num_items → (q.first_item + i) % q.items.length ≠ j) →
      q.items[j]? = some 0 := by
  induction h with
  | empty =>
    intro j hj _
    simp [empty] at hj
  | sized n =>
    intro j hj _
    simp only [sized, List.length_replicate] at hj ⊢
    rw [List.getElem?_replicate, if_pos hj]
  | filled n value =>
    intro j hj hout
    simp only [filled, List.length_replicate] at hj hout
    have := hout j hj
    rw [Nat.zero_add, Nat.mod_eq_of_lt hj] at this
    exact absurd rfl this
  | of_init init =>
    intro j hj hout
    simp only [of_init] at hj hout
    have := hout j hj
    rw [Nat.zero_add, Nat.mod_eq_of_lt hj] at this
    exact absurd rfl this
  | copy _ ih => exact ih
  | move_new _ ih => exact ih
  | move_old _ _ =>
    intro j hj _
    simp [move] at hj
  | clear _ _ =>
    intro j hj _
    simp [clear] at hj
  | @push_back_realloc q q1 held v hq hfull hq1 ih =>
    have hwf := WF_of_Reach hq
    rw [push_back_of_full hwf hfull v] at hq1
    rw [← Option.some.inj hq1]
    intro j hj hout
    have hlen := length_logical q
    have happ : logical q ++ v :: List.replicate
        ((if q.items.length = 0 then 4 else q.items.length * 2) - q.num_items - 1) (0 : α)
        = (logical q ++ [v]) ++ List.replicate
        ((if q.items.length = 0 then 4 else q.items.length * 2) - q.num_items - 1) 0 := by
      simp
    simp only [happ] at hj hout ⊢
    apply zero_outside_of_front _ _ _ hj
    intro i hi
    apply hout
    simpa [hlen] using hi
  | @push_back_in_place q q1 held v hq hfull hq1 ih =>
    have hwf := WF_of_Reach hq
    have hnf : q.num_items < q.items.length := lt_of_le_of_ne hwf.1 hfull
    rw [push_back_of_not_full hwf hnf v] at hq1
    rw [← Option.some.inj hq1]
    intro j hj hout
    simp only [List.length_set] at hj hout
    have hne : (q.first_item + q.num_items) % q.items.length ≠ j :=
      hout q.num_items (by omega)
    rw [List.getElem?_set_ne hne]
    exact ih j hj (fun i hi => hout i (by omega))
  | @pop_front q q1 held x hq hq1 ih =>
    have hwf := WF_of_Reach hq
    rcases pop_front_cases hwf with ⟨_, ht⟩ | ⟨hpos, _⟩
    · rw [ht] at hq1
      cases hq1
    · have hf := hwf.2 (by have := hwf.1; omega)
      rw [pop_front_of_pos hpos hf] at hq1
      cases hq1
      intro j hj hout
      simp only [List.length_set] at hj hout
      by_cases hjf : q.first_item = j
      · rw [← hjf]
        exact List.getElem?_set_self hf
      · rw [List.getElem?_set_ne hjf]
        apply ih j hj
        intro i hi
        cases i with
        | zero =>
          rw [Nat.add_zero, Nat.mod_eq_of_lt hf]
          exact hjf
        | succ i =>
          have := hout i (by omega)
          rw [mod_succ_offset] at this
          exact this
  | @pop_front_thrown q q1 held e hq hq1 ih =>
    have hwf := WF_of_Reach hq
    rcases pop_front_cases hwf with ⟨_, ht⟩ | ⟨_, _, _, hr, _⟩
    · rw [ht] at hq1
      cases hq1
      exact ih
    · rw [hr] at hq1
      cases hq1
  | front _ hq1 ih =>
    rw [front_state hq1]
    exact ih
  | back _ hq1 ih =>
    rw [back_state hq1]
    exact ih
  | @assign q held slot v hq _ hin ih =>
    intro j hj hout
    simp only [assign, List.length_set] at hj hout ⊢
    obtain ⟨i, hi, hslot⟩ := hin
    have hne : slot ≠ j := by
      rw [← hslot]
      exact hout i hi
    rw [List.getElem?_set_ne hne]
    exact ih j hj hout

/-- C17, as stated, fails: a reference returned by `front()` stays valid across `pop_front`,
    and a write through it afterwards puts a value outside the logical window. From
    `Queue{1, 2}`: `T& r = q.front(); q.pop_front(); r = 5;` leaves start 1, count 1 and the
    backing store `5 2`; slot 0 is not a logical position and holds 5. -/
theorem stale_write_outside_window :
    Reachable (⟨1, 1, [5, 2]⟩ : Queue Int)
      ∧ 0 < (⟨1, 1, [5, 2]⟩ : Queue Int).Capacity
      ∧ (∀ i, i < (⟨1, 1, [5, 2]⟩ : Queue Int).num_items →
          ((⟨1, 1, [5, 2]⟩ : Queue Int).first_item + i)
            % (⟨1, 1, [5, 2]⟩ : Queue Int).Capacity ≠ 0)
      ∧ (⟨1, 1, [5, 2]⟩ : Queue Int).items[0]? = some 5
      ∧ (⟨1, 1, [5, 2]⟩ : Queue Int).items[0]? ≠ some 0 := by
  refine ⟨⟨[0], ?_⟩, by decide, by decide, by decide, by decide⟩
  have h0 : Reach (fun _ _ => True) (of_init [1, 2] : Queue Int) [] := Reach.of_init [1, 2]
  have h1 : Reach (fun _ _ => True) (of_init [1, 2] : Queue Int) [0] :=
    Reach.front h0 (by decide)
  have h2 : Reach (fun _ _ => True) (⟨1, 1, [0, 2]⟩ : Queue Int) [0] :=
    Reach.pop_front h1 (by decide : pop_front (of_init [1, 2] : Queue Int)
      = .ret 1 ⟨1, 1, [0, 2]⟩)
  have h3 : Reach (fun _ _ => True) (assign (⟨1, 1, [0, 2]⟩ : Queue Int) 0 5) [0] :=
    Reach.assign 5 h2 (by simp) trivial
  exact h3

/-- C17, amended. In every state reached from a constructor by `push_back`, `pop_front`,
    `clear`, copy, move and writes through a reference returned by `front()` or `back()` made
    while the slot referred to is one of the logical positions, a slot of the backing store
    that is none of the logical positions `(start + i) mod capacity`, `i < count`, holds
    zero. -/
theorem slots_outside_window_zero [Zero α] (q : Queue α) (h : ReachableLive q) (j : Nat)
    (hj : j < q.Capacity)
    (hout : ∀ i, i < q.num_items → (q.first_item + i) % q.Capacity ≠ j) :
    q.items[j]? = some 0 := by
  obtain ⟨held, hr⟩ := h
  exact zero_outside_of_Reach hr j hj hout

/-- Witness for C17 (amended): `Queue{3, 4, 5, 6}` after two calls of `pop_front` and the
    write `q.back() = 8`; slot 1 is outside the window `2, 3`. -/
theorem slots_outside_window_zero_witness :
    (⟨2, 2, [0, 0, 5, 8]⟩ : Queue Int).items[1]? = some 0 :=
  slots_outside_window_zero (⟨2, 2, [0, 0, 5, 8]⟩ : Queue Int)
    ⟨[3], @Reach.assign Int _ InWindow ⟨2, 2, [0, 0, 5, 6]⟩ [3] 3 8
      (@Reach.back Int _ InWindow ⟨2, 2, [0, 0, 5, 6]⟩ ⟨2, 2, [0, 0, 5, 6]⟩ [] 3
        (@Reach.pop_front Int _ InWindow ⟨1, 3, [0, 4, 5, 6]⟩ ⟨2, 2, [0, 0, 5, 6]⟩ [] 4
          (@Reach.pop_front Int _ InWindow (of_init [3, 4, 5, 6]) ⟨1, 3, [0, 4, 5, 6]⟩ [] 3
            (Reach.of_init [3, 4, 5, 6]) (by decide))
          (by decide))
        (by decide))
      (by simp) ⟨1, by decide, by decide⟩⟩
    1 (by decide) (by decide)

end Queue

end DynaPlex
